import Mathlib

/-!
Fragmentation and reassembly (`atom.cpp`)

A shallow embedding of `fragment`, `fragments`, `sort`, `integrity`, `eof`,
`split`, `joins` and `join`, followed by the properties proved about them.

Conventions of the embedding:
* `unsigned` is a `Nat` below `2^32`; every `++`, `--`, `+` and `-` on an
  `unsigned` is followed by `% 2^32`.
* `std::string` is a list of bytes, `std::vector<fragment>` a list.
* `std::set<fragment>` is a list kept strictly ascending for `operator<`;
  inserting an element equivalent to a stored one leaves the set unchanged.
* `std::map<unsigned, V>` is an association list kept ascending in the key.
-/

namespace Atom

/-- One byte of a `std::string`. -/
abbrev Byte := Fin 256

/-- The modulus of `unsigned` arithmetic. -/
def W : Nat := 4294967296

/-- The decrement `--` of an `unsigned`. -/
def wpred (v : Nat) : Nat := (v + W - 1) % W

/-- The increment `++` of an `unsigned`. -/
def wsucc (v : Nat) : Nat := (v + 1) % W

/-- The struct `fragment`: `unsigned id, seq, left; std::string payload`. -/
structure fragment where
  id : Nat
  seq : Nat
  left : Nat
  payload : List Byte
deriving DecidableEq, Repr

/-- The method `total`: `left + seq` in `unsigned` arithmetic. -/
def fragment.total (f : fragment) : Nat := (f.left + f.seq) % W

/-- The comparison `operator<`: `id != other.id ? id < other.id : seq < other.seq`. -/
def fragment.lt (f other : fragment) : Bool :=
  if f.id ≠ other.id then decide (f.id < other.id) else decide (f.seq < other.seq)

/-- The struct `fragments`, a `std::vector<fragment>`. -/
abbrev fragments := List fragment

/-- The operator `+=`: push every fragment of `other` at the back of `self`. -/
def fragments.addAssign (self other : fragments) : fragments :=
  other.foldl (fun acc f => acc ++ [f]) self

/-- The operator `+`: `fragments fs = other; return fs += *this;`. -/
def fragments.add (self other : fragments) : fragments :=
  fragments.addAssign other self

/-- Insertion into a `std::set<fragment>`: the element goes to its place in
ascending order, unless an equivalent element (neither below the other) is
already stored, in which case the set is unchanged. -/
def setInsert (f : fragment) : List fragment → List fragment
  | [] => [f]
  | g :: rest =>
    if f.lt g then f :: g :: rest
    else if g.lt f then g :: setInsert f rest
    else g :: rest

/-- The function `sort`: build a `std::set` from the range, read it back in order. -/
def sort (fs : fragments) : fragments :=
  fs.foldl (fun s f => setInsert f s) []

/-- Lookup in a `std::map<unsigned, V>` (`find`). -/
def mapFind {V : Type} : List (Nat × V) → Nat → Option V
  | [], _ => none
  | (k', v') :: rest, k => if k = k' then some v' else mapFind rest k

/-- Assignment `m[k] = v` in a `std::map<unsigned, V>`: overwrite the entry of
`k`, or insert one at its place in ascending key order. -/
def mapSet {V : Type} : List (Nat × V) → Nat → V → List (Nat × V)
  | [], k, v => [(k, v)]
  | (k', v') :: rest, k, v =>
    if k < k' then (k, v) :: (k', v') :: rest
    else if k = k' then (k, v) :: rest
    else (k', v') :: mapSet rest k v

/-- One iteration of the loop of `integrity`. -/
def integrityStep (hits : List (Nat × Nat)) (f : fragment) : List (Nat × Nat) :=
  match mapFind hits f.id with
  | none => mapSet hits f.id (wpred f.total)
  | some v => mapSet hits f.id (wpred v)

/-- The function `integrity`: the map from channel id to miss counter. -/
def integrity (fs : fragments) : List (Nat × Nat) :=
  (sort fs).foldl integrityStep []

/-- The function `eof`. -/
def eof (fs : fragments) (id : Nat) : Bool :=
  match mapFind (integrity fs) id with
  | none => false
  | some v => v == 0

/-- The state of the loop of `split`: the counter `seq`, the countdown
`left`, the emitted fragments `fs` and the fragment `f` being filled. -/
structure SplitState where
  seq : Nat
  left : Nat
  fs : fragments
  f : fragment
deriving DecidableEq, Repr

/-- One iteration of the first loop of `split`, on the character `ch`. -/
def splitStep (bytes id : Nat) (s : SplitState) (ch : Byte) : SplitState :=
  let f1 : fragment := { s.f with payload := s.f.payload ++ [ch] }
  let left1 := wpred s.left
  if left1 = 0 then
    { seq := wsucc s.seq, left := bytes, fs := s.fs ++ [f1],
      f := { id := id, seq := s.seq, left := 0, payload := [] } }
  else
    { seq := s.seq, left := left1, fs := s.fs, f := f1 }

/-- The state before the first loop of `split`: `seq = 0, left = bytes`,
then `fragment f { id, seq++, 0 }`. -/
def splitInit (bytes id : Nat) : SplitState :=
  { seq := wsucc 0, left := bytes, fs := [],
    f := { id := id, seq := 0, left := 0, payload := [] } }

/-- The tail of `split`: push the last fragment when its payload is not
empty. -/
def splitFlush (s : SplitState) : fragments :=
  if s.f.payload ≠ [] then s.fs ++ [s.f] else s.fs

/-- The last loop of `split`: `f.left = fs.size() - f.seq`, truncated to
`unsigned` (`f.seq` is below `2^32`). -/
def setLeft (size : Nat) (f : fragment) : fragment :=
  { f with left := (size % W + W - f.seq % W) % W }

/-- The function `split` on one string. -/
def split (data : List Byte) (bytes : Nat) (id : Nat) : fragments :=
  let fs := splitFlush (data.foldl (splitStep bytes id) (splitInit bytes id))
  fs.map (setLeft fs.length)

/-- The function `split` on a vector of strings: the loop state is the pair
of the fragments so far and the next channel id. -/
def splitAllStep (bytes : Nat) (s : fragments × Nat) (d : List Byte) : fragments × Nat :=
  (fragments.addAssign s.1 (split d bytes s.2), wsucc s.2)

/-- The function `split` on a vector of strings. -/
def splitAll (data : List (List Byte)) (bytes : Nat) : fragments :=
  (data.foldl (splitAllStep bytes) ([], 0)).1

/-- One iteration of the first loop of `joins`: `payloads[f.id] += f.payload`. -/
def joinsStep (payloads : List (Nat × List Byte)) (f : fragment) : List (Nat × List Byte) :=
  mapSet payloads f.id ((mapFind payloads f.id).getD [] ++ f.payload)

/-- One iteration of the second loop of `joins`: clear the payload of a
channel that is not at `eof`. -/
def joinsClear (nodupes : fragments) (payloads : List (Nat × List Byte))
    (kv : Nat × List Byte) : List (Nat × List Byte) :=
  if !eof nodupes kv.1 then mapSet payloads kv.1 [] else payloads

/-- The function `joins`. -/
def joins (fs : fragments) : List (Nat × List Byte) :=
  let nodupes := sort fs
  let payloads := nodupes.foldl joinsStep []
  payloads.foldl (joinsClear nodupes) payloads

/-- The function `join`: `joins(fragments)[id]`, the empty string when the
map has no entry for `id`. -/
def join (fs : fragments) (id : Nat) : List Byte :=
  (mapFind (joins fs) id).getD []

/-- The order of `operator<` as a proposition: ascending in `(id, seq)`. -/
def keyLt (a b : fragment) : Prop :=
  a.id < b.id ∨ (a.id = b.id ∧ a.seq < b.seq)

/-- Two fragments are equivalent for `operator<`: same `id` and same `seq`. -/
def sameKey (a b : fragment) : Prop :=
  a.id = b.id ∧ a.seq = b.seq

instance : IsIrrefl fragment keyLt :=
  ⟨fun a h => by unfold keyLt at h; omega⟩

instance : IsAntisymm fragment keyLt :=
  ⟨fun a b h1 h2 => by unfold keyLt at h1 h2; omega⟩

/-- Fragments of the list are determined by their key `(id, seq)`. -/
def KeyFunctional (fs : fragments) : Prop :=
  ∀ a ∈ fs, ∀ b ∈ fs, sameKey a b → a = b

/-- The fragments of channel `i`, in the order of the list. -/
def channel (fs : fragments) (i : Nat) : fragments :=
  fs.filter (fun f => f.id = i)

/-- The value of an `unsigned` after `k` decrements. -/
def decr (v k : Nat) : Nat := wpred^[k] v

/-- The payloads of the fragments, concatenated in the order of the list. -/
def concatPayloads (l : fragments) : List Byte :=
  l.flatMap (fun f => f.payload)

/-- The number of chunks of `bytes` bytes needed for `len` bytes, rounded up. -/
def chunkCount (len bytes : Nat) : Nat := (len + bytes - 1) / bytes

/-- The bytes `[k * bytes, min ((k + 1) * bytes, length))` of the payload. -/
def chunk (data : List Byte) (bytes k : Nat) : List Byte :=
  (data.drop (k * bytes)).take bytes

/-- The fragment `split` emits at position `j` when no counter wraps. -/
def fragmentAt (data : List Byte) (bytes id j : Nat) : fragment :=
  { id := id, seq := j, left := chunkCount data.length bytes - j, payload := chunk data bytes j }

/-- The fragments of the payloads in order, channel ids counted up from `k`
without wrapping. -/
def splitFrom (bytes : Nat) : Nat → List (List Byte) → fragments
  | _, [] => []
  | k, d :: ds => split d bytes k ++ splitFrom bytes (k + 1) ds

/-- The hypotheses under which no counter of `split` wraps: a chunk size
that fits an `unsigned`, at most `2^32` payloads, each shorter than `2^32`
bytes. -/
def NoWrap (payloads : List (List Byte)) (bytes : Nat) : Prop :=
  1 ≤ bytes ∧ bytes < W ∧ payloads.length ≤ W ∧ ∀ d ∈ payloads, d.length < W

/-- What holds of the state of the loop of `split` at every iteration. -/
def SplitInv (id : Nat) (s : SplitState) : Prop :=
  s.seq < W ∧ s.f.id = id ∧ s.f.seq < W ∧
    ∀ f ∈ s.fs, f.id = id ∧ f.seq < W ∧ f.payload ≠ []

/-- A vector of `2^32 + 1` strings: the strings of `pre` first, the string
`q` at index `2^32`, empty strings between them. -/
def wrapPayloads (pre : List (List Byte)) (q : List Byte) : List (List Byte) :=
  pre ++ (List.replicate (4294967296 - pre.length) [] ++ [q])

/-! ## The ordered set behind `sort` -/

theorem lt_iff_keyLt (a b : fragment) : a.lt b = true ↔ keyLt a b := by
  unfold fragment.lt keyLt
  by_cases h : a.id = b.id
  · simp [h]
  · simp [h]

theorem keyLt_trans {a b c : fragment} (h1 : keyLt a b) (h2 : keyLt b c) : keyLt a c := by
  unfold keyLt at *
  omega

theorem keyLt_irrefl (a : fragment) : ¬ keyLt a a := by
  unfold keyLt
  omega

theorem keyLt_asymm {a b : fragment} (h1 : keyLt a b) : ¬ keyLt b a := by
  unfold keyLt at *
  omega

theorem sameKey_of_not_keyLt {a b : fragment} (h1 : ¬ keyLt a b) (h2 : ¬ keyLt b a) :
    sameKey a b := by
  unfold keyLt at *
  unfold sameKey
  omega

theorem mem_setInsert {f g : fragment} {s : List fragment} (h : g ∈ setInsert f s) :
    g = f ∨ g ∈ s := by
  induction s with
  | nil => simpa [setInsert] using h
  | cons a rest ih =>
    unfold setInsert at h
    split at h
    · simpa using h
    · split at h
      · rcases List.mem_cons.1 h with h | h
        · exact Or.inr (h ▸ List.mem_cons_self _ _)
        · rcases ih h with h | h
          · exact Or.inl h
          · exact Or.inr (List.mem_cons_of_mem _ h)
      · exact Or.inr h

theorem subset_setInsert {f g : fragment} {s : List fragment} (h : g ∈ s) :
    g ∈ setInsert f s := by
  induction s with
  | nil => cases h
  | cons a rest ih =>
    unfold setInsert
    split
    · exact List.mem_cons_of_mem _ h
    · split
      · rcases List.mem_cons.1 h with h | h
        · exact h ▸ List.mem_cons_self _ _
        · exact List.mem_cons_of_mem _ (ih h)
      · exact h

theorem key_mem_setInsert (f : fragment) (s : List fragment) :
    ∃ g ∈ setInsert f s, sameKey g f := by
  induction s with
  | nil => exact ⟨f, by simp [setInsert], rfl, rfl⟩
  | cons a rest ih =>
    unfold setInsert
    split
    · exact ⟨f, List.mem_cons_self _ _, rfl, rfl⟩
    · rename_i h1
      split
      · obtain ⟨g, hg, hk⟩ := ih
        exact ⟨g, List.mem_cons_of_mem _ hg, hk⟩
      · rename_i h2
        refine ⟨a, List.mem_cons_self _ _, ?_⟩
        rw [lt_iff_keyLt] at h1 h2
        exact sameKey_of_not_keyLt h2 h1

theorem setInsert_sorted {f : fragment} {s : List fragment} (h : s.Pairwise keyLt) :
    (setInsert f s).Pairwise keyLt := by
  induction s with
  | nil => simp [setInsert]
  | cons a rest ih =>
    have ha := (List.pairwise_cons.1 h).1
    have hr := (List.pairwise_cons.1 h).2
    unfold setInsert
    split
    · rename_i h1
      rw [lt_iff_keyLt] at h1
      refine List.pairwise_cons.2 ⟨?_, h⟩
      intro b hb
      rcases List.mem_cons.1 hb with hb | hb
      · exact hb ▸ h1
      · exact keyLt_trans h1 (ha b hb)
    · split
      · rename_i h2
        rw [lt_iff_keyLt] at h2
        refine List.pairwise_cons.2 ⟨?_, ih hr⟩
        intro b hb
        rcases mem_setInsert hb with hb | hb
        · exact hb ▸ h2
        · exact ha b hb
      · exact h

theorem foldl_setInsert_sorted (fs s : List fragment) (h : s.Pairwise keyLt) :
    (fs.foldl (fun s f => setInsert f s) s).Pairwise keyLt := by
  induction fs generalizing s with
  | nil => exact h
  | cons a rest ih => exact ih _ (setInsert_sorted h)

theorem foldl_setInsert_mem (fs s : List fragment) {g : fragment}
    (h : g ∈ fs.foldl (fun s f => setInsert f s) s) : g ∈ s ∨ g ∈ fs := by
  induction fs generalizing s with
  | nil => exact Or.inl h
  | cons a rest ih =>
    rcases ih _ h with h | h
    · rcases mem_setInsert h with h | h
      · exact Or.inr (h ▸ List.mem_cons_self _ _)
      · exact Or.inl h
    · exact Or.inr (List.mem_cons_of_mem _ h)

theorem foldl_setInsert_subset (fs s : List fragment) {g : fragment} (h : g ∈ s) :
    g ∈ fs.foldl (fun s f => setInsert f s) s := by
  induction fs generalizing s with
  | nil => exact h
  | cons a rest ih => exact ih _ (subset_setInsert h)

theorem foldl_setInsert_key (fs s : List fragment) {f : fragment} (h : f ∈ fs) :
    ∃ g ∈ fs.foldl (fun s f => setInsert f s) s, sameKey g f := by
  induction fs generalizing s with
  | nil => cases h
  | cons a rest ih =>
    rcases List.mem_cons.1 h with h | h
    · obtain ⟨g, hg, hk⟩ := key_mem_setInsert a s
      exact ⟨g, foldl_setInsert_subset rest _ hg, h ▸ hk⟩
    · exact ih _ h

theorem sort_sorted (fs : fragments) : (sort fs).Pairwise keyLt :=
  foldl_setInsert_sorted fs [] List.Pairwise.nil

theorem mem_of_mem_sort {fs : fragments} {g : fragment} (h : g ∈ sort fs) : g ∈ fs := by
  rcases foldl_setInsert_mem fs [] h with h | h
  · cases h
  · exact h

theorem key_mem_sort {fs : fragments} {f : fragment} (h : f ∈ fs) :
    ∃ g ∈ sort fs, sameKey g f :=
  foldl_setInsert_key fs [] h

theorem not_sameKey_of_keyLt {a b : fragment} (h : keyLt a b) : ¬ sameKey a b := by
  unfold keyLt at h
  unfold sameKey
  omega

theorem sorted_keyFunctional {fs : fragments} (h : fs.Pairwise keyLt) : KeyFunctional fs := by
  induction fs with
  | nil => intro a ha; cases ha
  | cons x rest ih =>
    have hx := (List.pairwise_cons.1 h).1
    have hr := (List.pairwise_cons.1 h).2
    intro a ha b hb hk
    rcases List.mem_cons.1 ha with ha | ha <;> rcases List.mem_cons.1 hb with hb | hb
    · rw [ha, hb]
    · exact absurd hk (not_sameKey_of_keyLt (ha ▸ hx b hb))
    · exact absurd ⟨hk.1.symm, hk.2.symm⟩ (not_sameKey_of_keyLt (hb ▸ hx a ha))
    · exact ih hr a ha b hb hk

theorem sorted_eq_of_mem_iff {l₁ l₂ : fragments} (h₁ : l₁.Pairwise keyLt)
    (h₂ : l₂.Pairwise keyLt) (h : ∀ x, x ∈ l₁ ↔ x ∈ l₂) : l₁ = l₂ :=
  List.eq_of_perm_of_sorted ((List.perm_ext_iff_of_nodup h₁.nodup h₂.nodup).2 h) h₁ h₂

/-- The canonical form depends only on the members of the list, as long as
these are determined by their keys. -/
theorem sort_congr {fs fs' : fragments} (hf : KeyFunctional fs)
    (h : ∀ x, x ∈ fs' ↔ x ∈ fs) : sort fs' = sort fs := by
  apply sorted_eq_of_mem_iff (sort_sorted _) (sort_sorted _)
  intro x
  constructor
  · intro hx
    have hx' := (h x).1 (mem_of_mem_sort hx)
    obtain ⟨g, hg, hk⟩ := key_mem_sort hx'
    rw [← hf g (mem_of_mem_sort hg) x hx' hk]
    exact hg
  · intro hx
    have hx' := mem_of_mem_sort hx
    obtain ⟨g, hg, hk⟩ := key_mem_sort ((h x).2 hx')
    rw [← hf g ((h g).1 (mem_of_mem_sort hg)) x hx' hk]
    exact hg

theorem sort_eq_self {fs : fragments} (h : fs.Pairwise keyLt) : sort fs = fs := by
  apply sorted_eq_of_mem_iff (sort_sorted _) h
  intro x
  constructor
  · exact mem_of_mem_sort
  · intro hx
    obtain ⟨g, hg, hk⟩ := key_mem_sort hx
    rw [← sorted_keyFunctional h g (mem_of_mem_sort hg) x hx hk]
    exact hg

theorem sort_sort (fs : fragments) : sort (sort fs) = sort fs :=
  sort_eq_self (sort_sorted fs)

/-! ## The maps of `integrity` and `joins` -/

theorem mapFind_mapSet {V : Type} (m : List (Nat × V)) (k j : Nat) (v : V) :
    mapFind (mapSet m k v) j = if j = k then some v else mapFind m j := by
  induction m with
  | nil => simp [mapSet, mapFind]
  | cons kv rest ih =>
    obtain ⟨k', v'⟩ := kv
    unfold mapSet
    split
    · simp [mapFind]
    · split
      · rename_i h2
        subst h2
        simp only [mapFind]
        split <;> rfl
      · rename_i h1 h2
        simp only [mapFind, ih]
        by_cases hj : j = k'
        · have : j ≠ k := fun e => h2 (e ▸ hj)
          simp [hj, this, Ne.symm h2]
        · simp [hj]

theorem decr_zero (v : Nat) : decr v 0 = v := rfl

theorem decr_step (v k : Nat) : decr (wpred v) k = decr v (k + 1) := by
  unfold decr
  rw [Function.iterate_succ_apply]

theorem decr_succ (v k : Nat) : decr v (k + 1) = (v + (k + 1) * (W - 1)) % W := by
  induction k generalizing v with
  | zero =>
    rw [← decr_step, decr_zero]
    unfold wpred W
    omega
  | succ k ih =>
    rw [← decr_step, ih]
    unfold wpred W
    omega

theorem mapFind_integrityStep (hits : List (Nat × Nat)) (a : fragment) (i : Nat) :
    mapFind (integrityStep hits a) i =
      if i = a.id then
        match mapFind hits i with
        | none => some (wpred a.total)
        | some v => some (wpred v)
      else mapFind hits i := by
  unfold integrityStep
  by_cases h : i = a.id
  · subst h
    cases hm : mapFind hits a.id <;> simp [mapFind_mapSet]
  · cases hm : mapFind hits a.id <;> simp [mapFind_mapSet, h]

theorem channel_cons (a : fragment) (l : fragments) (i : Nat) :
    channel (a :: l) i = if a.id = i then a :: channel l i else channel l i := by
  unfold channel
  by_cases h : a.id = i <;> simp [List.filter_cons, h]

theorem foldl_integrityStep (l : fragments) (hits : List (Nat × Nat)) (i : Nat) :
    mapFind (l.foldl integrityStep hits) i =
      match mapFind hits i with
      | some v => some (decr v (channel l i).length)
      | none =>
        match channel l i with
        | [] => none
        | f0 :: rest => some (decr f0.total (rest.length + 1)) := by
  induction l generalizing hits with
  | nil =>
    cases hm : mapFind hits i with
    | none => simp [channel, hm]
    | some v =>
      simp only [List.foldl_nil, hm, channel, List.filter_nil, List.length_nil, decr_zero]
  | cons a rest ih =>
    rw [List.foldl_cons, ih, mapFind_integrityStep, channel_cons]
    by_cases h : i = a.id
    · subst h
      cases hm : mapFind hits a.id with
      | none => simp [decr_step]
      | some v => simp [decr_step]
    · have h' : ¬ a.id = i := fun e => h e.symm
      simp [h, h']

theorem mapFind_integrity (fs : fragments) (i : Nat) :
    mapFind (integrity fs) i =
      match channel (sort fs) i with
      | [] => none
      | f0 :: rest => some (decr f0.total (rest.length + 1)) := by
  unfold integrity
  rw [foldl_integrityStep]
  rfl

theorem integrity_sort (fs : fragments) : integrity (sort fs) = integrity fs := by
  unfold integrity
  rw [sort_sort]

theorem eof_sort (fs : fragments) (i : Nat) : eof (sort fs) i = eof fs i := by
  unfold eof
  rw [integrity_sort]

theorem eof_eq (fs : fragments) (i : Nat) :
    eof fs i =
      match channel (sort fs) i with
      | [] => false
      | f0 :: rest => decr f0.total (rest.length + 1) == 0 := by
  unfold eof
  rw [mapFind_integrity]
  cases channel (sort fs) i <;> rfl

theorem eof_of_channel_nil {fs : fragments} {i : Nat} (h : channel (sort fs) i = []) :
    eof fs i = false := by
  rw [eof_eq, h]

theorem foldl_joinsStep (l : fragments) (p : List (Nat × List Byte)) (i : Nat) :
    mapFind (l.foldl joinsStep p) i =
      if channel l i = [] then mapFind p i
      else some ((mapFind p i).getD [] ++ concatPayloads (channel l i)) := by
  induction l generalizing p with
  | nil => simp [channel]
  | cons a rest ih =>
    rw [List.foldl_cons, ih, channel_cons]
    unfold joinsStep
    rw [mapFind_mapSet]
    by_cases h : i = a.id
    · subst h
      by_cases hr : channel rest a.id = []
      · simp [hr, concatPayloads]
      · simp [hr, concatPayloads]
    · have h' : ¬ a.id = i := fun e => h e.symm
      simp [h, h']

theorem mapFind_isSome_iff {V : Type} (m : List (Nat × V)) (i : Nat) :
    (mapFind m i).isSome = true ↔ ∃ kv ∈ m, kv.1 = i := by
  induction m with
  | nil => simp [mapFind]
  | cons kv rest ih =>
    obtain ⟨k, v⟩ := kv
    unfold mapFind
    by_cases h : i = k
    · simp [h]
    · have h' : ¬ k = i := fun e => h e.symm
      simp [h, h', ih]

theorem foldl_joinsClear (nodupes : fragments) (kvs p : List (Nat × List Byte)) (i : Nat) :
    mapFind (kvs.foldl (joinsClear nodupes) p) i =
      if (∃ kv ∈ kvs, kv.1 = i) ∧ eof nodupes i = false then some [] else mapFind p i := by
  induction kvs generalizing p with
  | nil => simp
  | cons kv rest ih =>
    rw [List.foldl_cons, ih]
    unfold joinsClear
    by_cases h1 : (∃ kv ∈ rest, kv.1 = i) ∧ eof nodupes i = false
    · have h2 : (∃ x ∈ kv :: rest, x.1 = i) ∧ eof nodupes i = false := by
        obtain ⟨⟨x, hx, hxi⟩, he⟩ := h1
        exact ⟨⟨x, List.mem_cons_of_mem _ hx, hxi⟩, he⟩
      rw [if_pos h1, if_pos h2]
    · rw [if_neg h1]
      by_cases hk : kv.1 = i
      · subst hk
        cases he : eof nodupes kv.1
        · simp [mapFind_mapSet]
        · simp [he] at h1 ⊢
      · have hiff : ((∃ x ∈ kv :: rest, x.1 = i) ∧ eof nodupes i = false) ↔
            ((∃ x ∈ rest, x.1 = i) ∧ eof nodupes i = false) := by
          simp [hk]
        rw [if_neg (fun h => h1 (hiff.1 h))]
        have hk' : ¬ i = kv.1 := fun e => hk e.symm
        split
        · simp [mapFind_mapSet, hk']
        · rfl

/-- What `join` returns: the payloads of the channel in canonical order when
the channel is at `eof`, the empty string otherwise. -/
theorem join_eq (fs : fragments) (i : Nat) :
    join fs i = if eof fs i = true then concatPayloads (channel (sort fs) i) else [] := by
  unfold join joins
  simp only []
  rw [foldl_joinsClear, eof_sort]
  have hkey : (∃ kv ∈ (sort fs).foldl joinsStep [], kv.1 = i) ↔ channel (sort fs) i ≠ [] := by
    rw [← mapFind_isSome_iff, foldl_joinsStep]
    by_cases hc : channel (sort fs) i = [] <;> simp [hc, mapFind]
  rw [foldl_joinsStep]
  by_cases hc : channel (sort fs) i = []
  · have he := eof_of_channel_nil hc
    simp [hkey, hc, he, mapFind]
  · cases he : eof fs i
    · simp [hkey, hc]
    · simp [hc, mapFind]

/-! ## The loop of `split` -/

theorem wpred_eq {v : Nat} (h1 : 1 ≤ v) (h2 : v < W) : wpred v = v - 1 := by
  unfold wpred W at *
  omega

theorem wsucc_eq {v : Nat} (h : v + 1 < W) : wsucc v = v + 1 := by
  unfold wsucc W at *
  omega

/-- Fewer characters than the countdown: the current fragment grows and
nothing is emitted. -/
theorem foldl_splitStep_short (bytes id : Nat) (xs : List Byte) (seq left : Nat)
    (fs : fragments) (f : fragment) (h1 : xs.length < left) (h2 : left < W) :
    xs.foldl (splitStep bytes id) { seq := seq, left := left, fs := fs, f := f } =
      { seq := seq, left := left - xs.length, fs := fs,
        f := { id := f.id, seq := f.seq, left := f.left, payload := f.payload ++ xs } } := by
  induction xs generalizing left f with
  | nil => simp
  | cons x xs ih =>
    simp only [List.length_cons] at h1
    have hw : wpred left = left - 1 := wpred_eq (by omega) h2
    have hne : ¬ (left - 1 = 0) := by omega
    have hlen : left - 1 - xs.length = left - (xs.length + 1) := by omega
    have h1' : xs.length < left - 1 := by omega
    have h2' : left - 1 < W := Nat.lt_of_le_of_lt (Nat.sub_le _ _) h2
    have hstep : splitStep bytes id { seq := seq, left := left, fs := fs, f := f } x =
        { seq := seq, left := left - 1, fs := fs,
          f := { id := f.id, seq := f.seq, left := f.left, payload := f.payload ++ [x] } } := by
      unfold splitStep
      simp only [hw]
      rw [if_neg hne]
    rw [List.foldl_cons, hstep,
      ih (left - 1) { id := f.id, seq := f.seq, left := f.left, payload := f.payload ++ [x] }
        h1' h2']
    simp only [List.length_cons, List.append_assoc, List.singleton_append, hlen]

theorem splitStep_emit (bytes id seq left : Nat) (fs : fragments) (f : fragment) (b : Byte)
    (hw : wpred left = 0) :
    splitStep bytes id { seq := seq, left := left, fs := fs, f := f } b =
      { seq := wsucc seq, left := bytes,
        fs := fs ++ [{ id := f.id, seq := f.seq, left := f.left, payload := f.payload ++ [b] }],
        f := { id := id, seq := seq, left := 0, payload := [] } } := by
  unfold splitStep
  simp only [hw]
  rw [if_pos trivial]

/-- Exactly as many characters as the countdown: one fragment is emitted and
a fresh one is started. -/
theorem foldl_splitStep_full (bytes id : Nat) (xs : List Byte) (seq left : Nat)
    (fs : fragments) (f : fragment) (h1 : xs.length = left) (h0 : 1 ≤ left) (h2 : left < W) :
    xs.foldl (splitStep bytes id) { seq := seq, left := left, fs := fs, f := f } =
      { seq := wsucc seq, left := bytes,
        fs := fs ++ [{ id := f.id, seq := f.seq, left := f.left, payload := f.payload ++ xs }],
        f := { id := id, seq := seq, left := 0, payload := [] } } := by
  rcases List.eq_nil_or_concat xs with hx | ⟨ini, b, hx⟩
  · subst hx
    simp only [List.length_nil] at h1
    omega
  · subst hx
    simp only [List.concat_eq_append, List.length_append, List.length_singleton] at h1 ⊢
    have hini : ini.length < left := by omega
    have hone : 1 ≤ left - ini.length := by omega
    have hzero : left - ini.length - 1 = 0 := by omega
    have hlt : left - ini.length < W := Nat.lt_of_le_of_lt (Nat.sub_le _ _) h2
    have hw : wpred (left - ini.length) = 0 := by
      rw [wpred_eq hone hlt]
      exact hzero
    rw [List.foldl_append, foldl_splitStep_short bytes id ini seq left fs f hini h2,
      List.foldl_cons, List.foldl_nil,
      splitStep_emit bytes id seq (left - ini.length) fs _ b hw, List.append_assoc]

theorem chunkCount_zero {bytes : Nat} (h0 : 1 ≤ bytes) : chunkCount 0 bytes = 0 := by
  unfold chunkCount
  exact Nat.div_eq_of_lt (by omega)

theorem chunkCount_small {len bytes : Nat} (h1 : 0 < len) (h2 : len ≤ bytes) :
    chunkCount len bytes = 1 := by
  unfold chunkCount
  exact Nat.div_eq_of_lt_le (by omega) (by omega)

theorem chunkCount_step {len bytes : Nat} (h0 : 1 ≤ bytes) (h : bytes ≤ len) :
    chunkCount len bytes = chunkCount (len - bytes) bytes + 1 := by
  unfold chunkCount
  have e : len + bytes - 1 = (len - bytes + bytes - 1) + bytes := by omega
  rw [e, Nat.add_div_right _ (by omega)]

theorem chunkCount_le {len bytes : Nat} (h0 : 1 ≤ bytes) : chunkCount len bytes ≤ len := by
  induction len using Nat.strong_induction_on with
  | _ len ih =>
    by_cases h : bytes ≤ len
    · rw [chunkCount_step h0 h]
      have := ih (len - bytes) (by omega)
      omega
    · by_cases hz : len = 0
      · subst hz
        rw [chunkCount_zero h0]
      · rw [chunkCount_small (by omega) (by omega)]
        omega

theorem chunk_zero_of_le {data : List Byte} {bytes : Nat} (h : data.length ≤ bytes) :
    chunk data bytes 0 = data := by
  unfold chunk
  simp [List.take_of_length_le h]

theorem chunk_succ (data : List Byte) (bytes k : Nat) :
    chunk data bytes (k + 1) = chunk (data.drop bytes) bytes k := by
  unfold chunk
  rw [List.drop_drop]
  congr 2
  rw [Nat.add_mul, Nat.one_mul, Nat.add_comm]

theorem splitFlush_of_nil (seq left : Nat) (fs : fragments) (f : fragment)
    (h : f.payload = []) :
    splitFlush { seq := seq, left := left, fs := fs, f := f } = fs := by
  unfold splitFlush
  simp only [h]
  rw [if_neg (fun hne => hne rfl)]

theorem splitFlush_of_ne_nil (seq left : Nat) (fs : fragments) (f : fragment)
    (h : f.payload ≠ []) :
    splitFlush { seq := seq, left := left, fs := fs, f := f } = fs ++ [f] := by
  unfold splitFlush
  rw [if_pos h]

/-- The fragments the first loop of `split` and the flush emit, started at
sequence number `k`: the chunks of the payload in order, no counter wrapping. -/
theorem splitFlush_foldl (bytes id : Nat) (h0 : 1 ≤ bytes) (hW : bytes < W) (n : Nat) :
    ∀ (data : List Byte) (k : Nat) (fs : fragments), data.length ≤ n → k + data.length < W →
      splitFlush (data.foldl (splitStep bytes id)
          { seq := wsucc k, left := bytes, fs := fs,
            f := { id := id, seq := k, left := 0, payload := [] } }) =
        fs ++ (List.range (chunkCount data.length bytes)).map
          (fun j => { id := id, seq := k + j, left := 0, payload := chunk data bytes j }) := by
  induction n with
  | zero =>
    intro data k fs hn _
    have hd : data = [] := List.eq_nil_of_length_eq_zero (by omega)
    subst hd
    rw [List.foldl_nil, splitFlush_of_nil _ _ _ _ rfl, List.length_nil, chunkCount_zero h0,
      List.range_zero, List.map_nil, List.append_nil]
  | succ n ih =>
    intro data k fs hn hk
    by_cases hz : data.length = 0
    · have hd : data = [] := List.eq_nil_of_length_eq_zero hz
      subst hd
      rw [List.foldl_nil, splitFlush_of_nil _ _ _ _ rfl, List.length_nil, chunkCount_zero h0,
        List.range_zero, List.map_nil, List.append_nil]
    · by_cases hlt : data.length < bytes
      · have hne : data ≠ [] := fun e => hz (by rw [e]; rfl)
        rw [foldl_splitStep_short bytes id data (wsucc k) bytes fs _ hlt hW,
          splitFlush_of_ne_nil _ _ _ _ (by simpa using hne),
          chunkCount_small (Nat.pos_of_ne_zero hz) (Nat.le_of_lt hlt)]
        have hr : List.range 1 = [0] := rfl
        rw [hr, List.map_cons, List.map_nil, Nat.add_zero, chunk_zero_of_le (Nat.le_of_lt hlt)]
        rfl
      · have hsplit : data = data.take bytes ++ data.drop bytes := (List.take_append_drop _ _).symm
        have hlen : (data.take bytes).length = bytes := by
          rw [List.length_take]
          omega
        have hk1 : wsucc k = k + 1 := wsucc_eq (by omega)
        have hdl : (data.drop bytes).length = data.length - bytes := List.length_drop _ _
        have hle : bytes ≤ data.length := by omega
        have hn' : (data.drop bytes).length ≤ n := by omega
        have hk' : k + 1 + (data.drop bytes).length < W := by omega
        have hih := ih (data.drop bytes) (k + 1)
          (fs ++ [{ id := id, seq := k, left := 0, payload := [] ++ data.take bytes }]) hn' hk'
        have hc0 : chunk data bytes 0 = List.take bytes data := by
          unfold chunk
          rw [Nat.zero_mul, List.drop_zero]
        have hmap : (List.range (chunkCount (data.length - bytes) bytes)).map
            (fun j => ({ id := id, seq := k + 1 + j, left := 0,
                         payload := chunk (data.drop bytes) bytes j } : fragment)) =
            (List.map Nat.succ (List.range (chunkCount (data.length - bytes) bytes))).map
            (fun j => ({ id := id, seq := k + j, left := 0,
                         payload := chunk data bytes j } : fragment)) := by
          rw [List.map_map]
          apply List.map_congr_left
          intro j _
          have e : k + 1 + j = k + (j + 1) := by omega
          simp only [Function.comp, Nat.succ_eq_add_one, chunk_succ, e]
        have hfold : List.foldl (splitStep bytes id)
            { seq := wsucc k, left := bytes, fs := fs,
              f := { id := id, seq := k, left := 0, payload := [] } } data =
            List.foldl (splitStep bytes id)
              { seq := wsucc (k + 1), left := bytes,
                fs := fs ++ [{ id := id, seq := k, left := 0, payload := [] ++ data.take bytes }],
                f := { id := id, seq := k + 1, left := 0, payload := [] } } (data.drop bytes) := by
          conv => lhs; rw [hsplit]
          rw [List.foldl_append,
            foldl_splitStep_full bytes id (data.take bytes) (wsucc k) bytes fs _ hlen h0 hW, hk1]
        rw [hfold, hih, hdl, chunkCount_step h0 hle, List.range_succ_eq_map, hmap, List.map_cons,
          List.nil_append, Nat.add_zero, hc0, List.append_assoc, List.singleton_append]

/-- Without wrapping, `split` is the list of the chunks in order, numbered
from 0, each with `left` the number of fragments from itself on. -/
theorem split_eq (data : List Byte) (bytes id : Nat) (h0 : 1 ≤ bytes) (hW : bytes < W)
    (hL : data.length < W) :
    split data bytes id =
      (List.range (chunkCount data.length bytes)).map (fragmentAt data bytes id) := by
  have hn : chunkCount data.length bytes ≤ data.length := chunkCount_le h0
  unfold split splitInit
  simp only []
  rw [splitFlush_foldl bytes id h0 hW data.length data 0 [] (Nat.le_refl _) (by omega)]
  simp only [List.nil_append, List.length_map, List.length_range, List.map_map]
  apply List.map_congr_left
  intro j hj
  have hj' : j < chunkCount data.length bytes := List.mem_range.1 hj
  simp only [Function.comp, setLeft, fragmentAt, Nat.zero_add]
  congr 1
  unfold W at *
  omega

theorem split_length (data : List Byte) (bytes id : Nat) (h0 : 1 ≤ bytes) (hW : bytes < W)
    (hL : data.length < W) :
    (split data bytes id).length = chunkCount data.length bytes := by
  rw [split_eq data bytes id h0 hW hL]
  simp

theorem mem_split {data : List Byte} {bytes id : Nat} (h0 : 1 ≤ bytes) (hW : bytes < W)
    (hL : data.length < W) {f : fragment} (hf : f ∈ split data bytes id) :
    ∃ j, j < chunkCount data.length bytes ∧ f = fragmentAt data bytes id j := by
  rw [split_eq data bytes id h0 hW hL] at hf
  obtain ⟨j, hj, e⟩ := List.mem_map.1 hf
  exact ⟨j, List.mem_range.1 hj, e.symm⟩

theorem split_sorted (data : List Byte) (bytes id : Nat) (h0 : 1 ≤ bytes) (hW : bytes < W)
    (hL : data.length < W) : (split data bytes id).Pairwise keyLt := by
  rw [split_eq data bytes id h0 hW hL, List.pairwise_map]
  refine (List.pairwise_lt_range _).imp ?_
  intro a b hab
  exact Or.inr ⟨rfl, hab⟩

theorem le_chunkCount_mul {len bytes : Nat} (h0 : 1 ≤ bytes) :
    len ≤ chunkCount len bytes * bytes := by
  induction len using Nat.strong_induction_on with
  | _ len ih =>
    by_cases h : bytes ≤ len
    · rw [chunkCount_step h0 h, Nat.add_mul, Nat.one_mul]
      have := ih (len - bytes) (by omega)
      omega
    · by_cases hz : len = 0
      · subst hz
        exact Nat.zero_le _
      · rw [chunkCount_small (by omega) (by omega)]
        omega

theorem flatMap_chunk (data : List Byte) (bytes m : Nat) :
    (List.range m).flatMap (chunk data bytes) = data.take (m * bytes) := by
  induction m with
  | zero => simp
  | succ m ih =>
    rw [List.range_succ, List.flatMap_append, ih, Nat.add_mul, Nat.one_mul, List.take_add]
    simp [chunk]

/-- The payloads of the fragments of `split`, concatenated, are the input. -/
theorem concatPayloads_split (data : List Byte) (bytes id : Nat) (h0 : 1 ≤ bytes)
    (hW : bytes < W) (hL : data.length < W) :
    concatPayloads (split data bytes id) = data := by
  rw [split_eq data bytes id h0 hW hL]
  unfold concatPayloads
  rw [List.flatMap_map]
  have : (fun j => (fragmentAt data bytes id j).payload) = chunk data bytes := rfl
  rw [this, flatMap_chunk]
  exact List.take_of_length_le (le_chunkCount_mul h0)

theorem split_nil (bytes id : Nat) : split [] bytes id = [] := by
  simp [split, splitFlush, splitInit]

/-! ## Channels cut by `split` -/

theorem decr_self {n : Nat} (h : 1 ≤ n) : decr n n = 0 := by
  obtain ⟨k, rfl⟩ : ∃ k, n = k + 1 := ⟨n - 1, by omega⟩
  rw [decr_succ]
  unfold W
  omega

theorem decr_one_short {n : Nat} (h : 2 ≤ n) (hW : n < W) : decr n (n - 1) = 1 := by
  obtain ⟨k, rfl⟩ : ∃ k, n = k + 2 := ⟨n - 2, by omega⟩
  show decr (k + 2) (k + 1) = 1
  rw [decr_succ]
  unfold W at *
  omega

theorem total_fragmentAt (data : List Byte) (bytes id : Nat) {j : Nat}
    (hj : j < chunkCount data.length bytes) (hn : chunkCount data.length bytes < W) :
    (fragmentAt data bytes id j).total = chunkCount data.length bytes := by
  unfold fragmentAt fragment.total
  simp only
  unfold W at *
  omega

theorem total_of_mem_split {data : List Byte} {bytes id : Nat} (h0 : 1 ≤ bytes) (hW : bytes < W)
    (hL : data.length < W) {f : fragment} (hf : f ∈ split data bytes id) :
    f.total = chunkCount data.length bytes := by
  obtain ⟨j, hj, rfl⟩ := mem_split h0 hW hL hf
  exact total_fragmentAt data bytes id hj (Nat.lt_of_le_of_lt (chunkCount_le h0) hL)

theorem id_of_mem_split {data : List Byte} {bytes id : Nat} (h0 : 1 ≤ bytes) (hW : bytes < W)
    (hL : data.length < W) {f : fragment} (hf : f ∈ split data bytes id) : f.id = id := by
  obtain ⟨j, _, rfl⟩ := mem_split h0 hW hL hf
  rfl

/-- A channel whose canonical fragments are those `split` cut from `data` is
at `eof`, unless `data` is empty and the channel has no fragment. -/
theorem eof_of_channel_eq_split {fs : fragments} {i : Nat} {data : List Byte} {bytes id : Nat}
    (h0 : 1 ≤ bytes) (hW : bytes < W) (hL : data.length < W)
    (hc : channel (sort fs) i = split data bytes id) (hne : data ≠ []) : eof fs i = true := by
  have hn : chunkCount data.length bytes ≤ data.length := chunkCount_le h0
  have hlen := split_length data bytes id h0 hW hL
  rw [eof_eq, hc]
  cases hs : split data bytes id with
  | nil =>
    rw [hs] at hlen
    have h1 := @le_chunkCount_mul data.length bytes h0
    rw [← hlen] at h1
    simp only [List.length_nil, Nat.zero_mul, Nat.le_zero] at h1
    exact absurd (List.eq_nil_of_length_eq_zero h1) hne
  | cons f0 rest =>
    have ht : f0.total = chunkCount data.length bytes :=
      total_of_mem_split h0 hW hL (hs ▸ List.mem_cons_self _ _)
    rw [hs] at hlen
    simp only [List.length_cons] at hlen
    simp only [ht, hlen]
    rw [decr_self (by omega)]
    rfl

/-- Round trip for one channel: when the canonical fragments of channel `i`
are those `split` cut from `data`, `join` returns `data`. -/
theorem join_of_channel_eq_split {fs : fragments} {i : Nat} {data : List Byte} {bytes id : Nat}
    (h0 : 1 ≤ bytes) (hW : bytes < W) (hL : data.length < W)
    (hc : channel (sort fs) i = split data bytes id) : join fs i = data := by
  rw [join_eq]
  by_cases hne : data = []
  · subst hne
    rw [split_nil] at hc
    rw [eof_of_channel_nil hc]
    simp
  · rw [eof_of_channel_eq_split h0 hW hL hc hne, if_pos rfl, hc,
      concatPayloads_split data bytes id h0 hW hL]

/-- A channel that holds one fragment less than the total its fragments
declare is not at `eof`. -/
theorem eof_false_of_one_short {fs : fragments} {i n : Nat}
    (ht : ∀ f ∈ channel (sort fs) i, f.total = n)
    (hlen : (channel (sort fs) i).length + 1 = n) (hW : n < W) : eof fs i = false := by
  rw [eof_eq]
  cases hs : channel (sort fs) i with
  | nil => rfl
  | cons f0 rest =>
    rw [hs] at hlen ht
    simp only [List.length_cons] at hlen
    have h0 : f0.total = n := ht f0 (List.mem_cons_self _ _)
    have hr : rest.length + 1 = n - 1 := by omega
    simp only [h0, hr]
    rw [decr_one_short (by omega) hW]
    rfl

theorem join_of_eof_false {fs : fragments} {i : Nat} (h : eof fs i = false) : join fs i = [] := by
  rw [join_eq, h]
  simp

theorem joins_congr {fs fs' : fragments} (h : sort fs' = sort fs) : joins fs' = joins fs := by
  unfold joins
  rw [h]

theorem join_congr {fs fs' : fragments} (h : sort fs' = sort fs) (i : Nat) :
    join fs' i = join fs i := by
  unfold join
  rw [joins_congr h]

theorem eof_congr {fs fs' : fragments} (h : sort fs' = sort fs) (i : Nat) :
    eof fs' i = eof fs i := by
  rw [← eof_sort fs', ← eof_sort fs, h]

theorem channel_split_self (data : List Byte) (bytes id : Nat) (h0 : 1 ≤ bytes) (hW : bytes < W)
    (hL : data.length < W) : channel (split data bytes id) id = split data bytes id := by
  unfold channel
  rw [List.filter_eq_self]
  intro f hf
  simp [id_of_mem_split h0 hW hL hf]

theorem channel_split_other (data : List Byte) (bytes id i : Nat) (h0 : 1 ≤ bytes)
    (hW : bytes < W) (hL : data.length < W) (hi : i ≠ id) :
    channel (split data bytes id) i = [] := by
  unfold channel
  rw [List.filter_eq_nil_iff]
  intro f hf
  simp [id_of_mem_split h0 hW hL hf, Ne.symm hi]

theorem channel_append (a b : fragments) (i : Nat) :
    channel (a ++ b) i = channel a i ++ channel b i := by
  unfold channel
  exact List.filter_append _ _

/-! ## `split` on a vector of strings -/

theorem addAssign_eq (a b : fragments) : fragments.addAssign a b = a ++ b := by
  unfold fragments.addAssign
  induction b generalizing a with
  | nil => simp
  | cons x rest ih => simp [ih]

theorem splitAllStep_eq (bytes : Nat) (fs : fragments) (k : Nat) (d : List Byte) :
    splitAllStep bytes (fs, k) d = (fs ++ split d bytes k, wsucc k) := by
  unfold splitAllStep
  rw [addAssign_eq]

theorem foldl_splitAllStep (bytes : Nat) (data : List (List Byte)) (fs : fragments) (k : Nat)
    (hk : k + data.length ≤ W) :
    (data.foldl (splitAllStep bytes) (fs, k)).1 = fs ++ splitFrom bytes k data := by
  induction data generalizing fs k with
  | nil =>
    rw [List.foldl_nil]
    simp only [splitFrom, List.append_nil]
  | cons d ds ih =>
    simp only [List.length_cons] at hk
    rw [List.foldl_cons, splitAllStep_eq]
    cases ds with
    | nil =>
      rw [List.foldl_nil]
      simp only [splitFrom, List.append_nil]
    | cons d2 ds2 =>
      simp only [List.length_cons] at hk
      have hk1 : wsucc k = k + 1 := wsucc_eq (by omega)
      have hk2 : k + 1 + (d2 :: ds2).length ≤ W := by
        simp only [List.length_cons]
        omega
      rw [hk1, ih (fs ++ split d bytes k) (k + 1) hk2]
      simp only [splitFrom, List.append_assoc]

theorem splitAll_eq (data : List (List Byte)) (bytes : Nat) (hN : data.length ≤ W) :
    splitAll data bytes = splitFrom bytes 0 data := by
  unfold splitAll
  rw [foldl_splitAllStep bytes data [] 0 (by omega)]
  simp

theorem id_of_mem_splitFrom {bytes : Nat} (h0 : 1 ≤ bytes) (hW : bytes < W)
    (data : List (List Byte)) (hL : ∀ d ∈ data, d.length < W) (k : Nat) {f : fragment}
    (hf : f ∈ splitFrom bytes k data) : k ≤ f.id ∧ f.id < k + data.length := by
  induction data generalizing k with
  | nil => cases hf
  | cons d ds ih =>
    simp only [splitFrom, List.mem_append] at hf
    simp only [List.length_cons]
    rcases hf with hf | hf
    · have := id_of_mem_split h0 hW (hL d (List.mem_cons_self _ _)) hf
      omega
    · have := ih (fun x hx => hL x (List.mem_cons_of_mem _ hx)) (k + 1) hf
      omega

theorem splitFrom_sorted {bytes : Nat} (h0 : 1 ≤ bytes) (hW : bytes < W)
    (data : List (List Byte)) (hL : ∀ d ∈ data, d.length < W) (k : Nat) :
    (splitFrom bytes k data).Pairwise keyLt := by
  induction data generalizing k with
  | nil => exact List.Pairwise.nil
  | cons d ds ih =>
    have hd := hL d (List.mem_cons_self _ _)
    have hds : ∀ x ∈ ds, x.length < W := fun x hx => hL x (List.mem_cons_of_mem _ hx)
    simp only [splitFrom]
    rw [List.pairwise_append]
    refine ⟨split_sorted d bytes k h0 hW hd, ih hds (k + 1), ?_⟩
    intro a ha b hb
    have h1 := id_of_mem_split h0 hW hd ha
    have h2 := id_of_mem_splitFrom h0 hW ds hds (k + 1) hb
    exact Or.inl (by omega)

/-- The fragments of channel `i` are those cut from the payload at index
`i - k`, or none when there is no such payload. -/
theorem channel_splitFrom {bytes : Nat} (h0 : 1 ≤ bytes) (hW : bytes < W)
    (data : List (List Byte)) (hL : ∀ d ∈ data, d.length < W) (k i : Nat) (hi : k ≤ i) :
    channel (splitFrom bytes k data) i = split (data.getD (i - k) []) bytes i := by
  induction data generalizing k with
  | nil => simp [splitFrom, channel, split_nil]
  | cons d ds ih =>
    have hd := hL d (List.mem_cons_self _ _)
    have hds : ∀ x ∈ ds, x.length < W := fun x hx => hL x (List.mem_cons_of_mem _ hx)
    simp only [splitFrom, channel_append]
    by_cases hik : i = k
    · subst hik
      have hnil : channel (splitFrom bytes (i + 1) ds) i = [] := by
        unfold channel
        rw [List.filter_eq_nil_iff]
        intro f hf
        have := id_of_mem_splitFrom h0 hW ds hds (i + 1) hf
        simp only [decide_eq_true_eq]
        omega
      rw [hnil, channel_split_self d bytes i h0 hW hd]
      simp
    · rw [channel_split_other d bytes k i h0 hW hd hik, ih hds (k + 1) (by omega)]
      obtain ⟨m, hm⟩ : ∃ m, i - k = m + 1 := ⟨i - k - 1, by omega⟩
      have hm' : i - (k + 1) = m := by omega
      rw [hm, hm']
      simp

theorem splitAll_sorted {payloads : List (List Byte)} {bytes : Nat} (h : NoWrap payloads bytes) :
    (splitAll payloads bytes).Pairwise keyLt := by
  obtain ⟨h0, hW, hN, hL⟩ := h
  rw [splitAll_eq payloads bytes hN]
  exact splitFrom_sorted h0 hW payloads hL 0

theorem channel_splitAll {payloads : List (List Byte)} {bytes : Nat} (h : NoWrap payloads bytes)
    (i : Nat) : channel (splitAll payloads bytes) i = split (payloads.getD i []) bytes i := by
  obtain ⟨h0, hW, hN, hL⟩ := h
  rw [splitAll_eq payloads bytes hN, channel_splitFrom h0 hW payloads hL 0 i (Nat.zero_le _)]
  simp

theorem getD_length_lt {payloads : List (List Byte)} {bytes : Nat} (h : NoWrap payloads bytes)
    (i : Nat) : (payloads.getD i []).length < W := by
  obtain ⟨_, _, _, hL⟩ := h
  by_cases hi : i < payloads.length
  · rw [List.getD_eq_getElem _ _ hi]
    exact hL _ (List.getElem_mem hi)
  · rw [List.getD_eq_default _ _ (by omega)]
    unfold W
    simp

/-! ## Losing one fragment -/

theorem sort_eraseIdx_perm {fs fs2 : fragments} (hs : fs.Pairwise keyLt) (hp : fs2.Perm fs)
    (k : Nat) (hk : k < fs2.length) : sort (fs2.eraseIdx k) = fs.erase fs2[k] := by
  have hnd : fs.Nodup := hs.nodup
  have hnd2 : fs2.Nodup := hp.nodup_iff.2 hnd
  have hsub : (fs.erase fs2[k]).Pairwise keyLt := hs.sublist (List.erase_sublist _ _)
  rw [← sort_eq_self hsub]
  apply sort_congr (sorted_keyFunctional hsub)
  intro x
  rw [← hnd2.erase_getElem k hk, hnd2.mem_erase_iff, hnd.mem_erase_iff, hp.mem_iff]

theorem channel_erase_other {fs : fragments} (hnd : fs.Nodup) (g : fragment) (i : Nat)
    (hi : i ≠ g.id) : channel (fs.erase g) i = channel fs i := by
  unfold channel
  rw [hnd.erase_eq_filter, List.filter_filter]
  apply List.filter_congr
  intro x _
  by_cases hx : x.id = i
  · have : x ≠ g := fun e => hi (by rw [← hx, e])
    simp [hx, this]
  · simp [hx]

theorem channel_erase_same {fs : fragments} (hnd : fs.Nodup) (g : fragment) :
    channel (fs.erase g) g.id = (channel fs g.id).erase g := by
  have hnd2 : (channel fs g.id).Nodup := hnd.filter _
  unfold channel at *
  rw [hnd.erase_eq_filter, hnd2.erase_eq_filter, List.filter_filter, List.filter_filter]
  apply List.filter_congr
  intro x _
  exact Bool.and_comm _ _

/-- After any reordering of the fragments `split` cut from the payloads and
the loss of the fragment at position `k`: the channel of the lost fragment is
not at `eof` and joins to the empty string, every other channel joins to its
payload. -/
theorem lose_one {payloads : List (List Byte)} {bytes : Nat} (h : NoWrap payloads bytes)
    {fs2 : fragments} (hp : fs2.Perm (splitAll payloads bytes)) (k : Nat) (hk : k < fs2.length) :
    eof (fs2.eraseIdx k) fs2[k].id = false ∧ join (fs2.eraseIdx k) fs2[k].id = [] ∧
      payloads.getD fs2[k].id [] ≠ [] ∧
      ∀ i, i ≠ fs2[k].id → join (fs2.eraseIdx k) i = payloads.getD i [] := by
  have hs := splitAll_sorted h
  have hnd : (splitAll payloads bytes).Nodup := hs.nodup
  have hsort := sort_eraseIdx_perm hs hp k hk
  have hg : fs2[k] ∈ splitAll payloads bytes := hp.mem_iff.1 (List.getElem_mem hk)
  obtain ⟨h0, hW, hN, hL⟩ := id h
  have hLj := getD_length_lt h fs2[k].id
  have hgc : fs2[k] ∈ split (payloads.getD fs2[k].id []) bytes fs2[k].id := by
    rw [← channel_splitAll h]
    unfold channel
    exact List.mem_filter.2 ⟨hg, by simp⟩
  have heof : eof (fs2.eraseIdx k) fs2[k].id = false := by
    apply @eof_false_of_one_short _ _ (chunkCount (payloads.getD fs2[k].id []).length bytes)
    · intro f hf
      rw [hsort, channel_erase_same hnd, channel_splitAll h] at hf
      exact total_of_mem_split h0 hW hLj (List.mem_of_mem_erase hf)
    · rw [hsort, channel_erase_same hnd, channel_splitAll h, List.length_erase_of_mem hgc,
        split_length _ _ _ h0 hW hLj]
      have : 0 < (split (payloads.getD fs2[k].id []) bytes fs2[k].id).length :=
        List.length_pos_of_mem hgc
      rw [split_length _ _ _ h0 hW hLj] at this
      omega
    · exact Nat.lt_of_le_of_lt (chunkCount_le h0) hLj
  refine ⟨heof, join_of_eof_false heof, ?_, ?_⟩
  · intro he
    rw [he, split_nil] at hgc
    cases hgc
  · intro i hi
    refine @join_of_channel_eq_split _ i _ bytes i h0 hW (getD_length_lt h i) ?_
    rw [hsort, channel_erase_other hnd _ i hi, channel_splitAll h]

theorem W_eq : W = 2 ^ 32 := by
  unfold W
  norm_num

theorem noWrap_intro {payloads : List (List Byte)} {bytes : Nat} (hC : 1 ≤ bytes)
    (hCW : bytes < 2 ^ 32) (hN : payloads.length ≤ 2 ^ 32)
    (hL : ∀ p ∈ payloads, p.length < 2 ^ 32) : NoWrap payloads bytes := by
  rw [← W_eq] at hCW hN hL
  exact ⟨hC, hCW, hN, hL⟩

theorem join_splitAll {payloads : List (List Byte)} {bytes : Nat} (h : NoWrap payloads bytes)
    (i : Nat) : join (splitAll payloads bytes) i = payloads.getD i [] := by
  obtain ⟨h0, hW, hN, hL⟩ := id h
  refine @join_of_channel_eq_split _ i _ bytes i h0 hW (getD_length_lt h i) ?_
  rw [sort_eq_self (splitAll_sorted h), channel_splitAll h]

/-! ## Wrapping of the channel counter -/

theorem wsucc_lt (k : Nat) : wsucc k < W := by
  unfold wsucc W
  omega

theorem foldl_splitAllStep_snd_lt (bytes : Nat) (data : List (List Byte)) (s : fragments × Nat)
    (hk : s.2 < W) : (data.foldl (splitAllStep bytes) s).2 < W := by
  induction data generalizing s with
  | nil => exact hk
  | cons d ds ih => exact ih _ (wsucc_lt _)

/-- Empty strings emit no fragment and only advance the channel counter. -/
theorem foldl_splitAllStep_replicate (bytes n : Nat) (fs : fragments) (k : Nat) (hk : k < W) :
    (List.replicate n ([] : List Byte)).foldl (splitAllStep bytes) (fs, k) =
      (fs, (k + n) % W) := by
  induction n generalizing k with
  | zero =>
    have : k % W = k := Nat.mod_eq_of_lt hk
    simp [this]
  | succ n ih =>
    rw [List.replicate_succ, List.foldl_cons]
    have hstep : splitAllStep bytes (fs, k) [] = (fs, wsucc k) := by
      simp [splitAllStep, split_nil, addAssign_eq]
    have e : (wsucc k + n) % W = (k + (n + 1)) % W := by
      unfold wsucc W
      omega
    rw [hstep, ih _ (wsucc_lt k), e]

theorem splitAll_wrap (pre post : List (List Byte)) (n bytes : Nat) :
    splitAll (pre ++ (List.replicate n [] ++ post)) bytes =
      (post.foldl (splitAllStep bytes)
        ((pre.foldl (splitAllStep bytes) ([], 0)).1,
          ((pre.foldl (splitAllStep bytes) ([], 0)).2 + n) % W)).1 := by
  unfold splitAll
  rw [List.foldl_append, List.foldl_append]
  have hlt := foldl_splitAllStep_snd_lt bytes pre ([], 0) (by unfold W; omega)
  rw [← foldl_splitAllStep_replicate bytes n _ _ hlt]

/-! ## Invariants of `split` that hold for every input -/

theorem splitInv_init (bytes id : Nat) : SplitInv id (splitInit bytes id) := by
  refine ⟨wsucc_lt 0, rfl, ?_, ?_⟩
  · show 0 < W
    unfold W
    omega
  · intro f hf
    cases hf

theorem splitInv_step (bytes id : Nat) (s : SplitState) (ch : Byte) (h : SplitInv id s) :
    SplitInv id (splitStep bytes id s ch) := by
  obtain ⟨h1, h2, h3, h4⟩ := h
  unfold splitStep
  simp only []
  by_cases hw : wpred s.left = 0
  · rw [if_pos hw]
    refine ⟨wsucc_lt _, rfl, h1, ?_⟩
    intro f hf
    rcases List.mem_append.1 hf with hf | hf
    · exact h4 f hf
    · rw [List.mem_singleton.1 hf]
      exact ⟨h2, h3, List.append_ne_nil_of_right_ne_nil _ (List.cons_ne_nil _ _)⟩
  · rw [if_neg hw]
    exact ⟨h1, h2, h3, h4⟩

theorem splitInv_foldl (bytes id : Nat) (data : List Byte) (s : SplitState) (h : SplitInv id s) :
    SplitInv id (data.foldl (splitStep bytes id) s) := by
  induction data generalizing s with
  | nil => exact h
  | cons ch rest ih =>
    rw [List.foldl_cons]
    exact ih (splitStep bytes id s ch) (splitInv_step bytes id s ch h)

theorem splitFlush_inv (id : Nat) (s : SplitState) (h : SplitInv id s) :
    ∀ f ∈ splitFlush s, f.id = id ∧ f.seq < W ∧ f.payload ≠ [] := by
  obtain ⟨_, h2, h3, h4⟩ := h
  unfold splitFlush
  by_cases hp : s.f.payload ≠ []
  · rw [if_pos hp]
    intro f hf
    rcases List.mem_append.1 hf with hf | hf
    · exact h4 f hf
    · rw [List.mem_singleton.1 hf]
      exact ⟨h2, h3, hp⟩
  · rw [if_neg hp]
    exact h4

/-- Every fragment of `split`, whatever the payload and the chunk size, has
the channel id asked for, a non-empty payload, and `left` the number of
fragments minus its sequence number, in `unsigned` arithmetic. -/
theorem mem_split_inv {data : List Byte} {bytes id : Nat} {f : fragment}
    (hf : f ∈ split data bytes id) :
    f.id = id ∧ f.seq < W ∧ f.payload ≠ [] ∧
      f.left = ((split data bytes id).length % W + W - f.seq) % W := by
  unfold split at hf ⊢
  simp only [List.length_map] at hf ⊢
  obtain ⟨g, hg, rfl⟩ := List.mem_map.1 hf
  obtain ⟨h1, h2, h3⟩ :=
    splitFlush_inv id _ (splitInv_foldl bytes id data _ (splitInv_init bytes id)) g hg
  refine ⟨h1, h2, h3, ?_⟩
  have e : (setLeft (splitFlush (data.foldl (splitStep bytes id) (splitInit bytes id))).length
      g).left = ((splitFlush (data.foldl (splitStep bytes id) (splitInit bytes id))).length % W
        + W - g.seq % W) % W := rfl
  rw [e, Nat.mod_eq_of_lt h2]
  rfl

theorem total_of_mem_split_inv {data : List Byte} {bytes id : Nat} {f : fragment}
    (hf : f ∈ split data bytes id) : f.total = (split data bytes id).length % W := by
  obtain ⟨_, h2, _, h4⟩ := mem_split_inv hf
  unfold fragment.total
  rw [h4]
  generalize (split data bytes id).length = n at *
  unfold W at *
  omega
/-! ## Round trips -/

theorem splitAll_wrapPayloads (pre : List (List Byte)) (q : List Byte) (bytes : Nat) :
    splitAll (wrapPayloads pre q) bytes =
      ([q].foldl (splitAllStep bytes)
        ((pre.foldl (splitAllStep bytes) ([], 0)).1,
          ((pre.foldl (splitAllStep bytes) ([], 0)).2 + (4294967296 - pre.length)) % W)).1 := by
  unfold wrapPayloads
  rw [splitAll_wrap]

theorem wrapPayloads_getElem? (pre : List (List Byte)) (q : List Byte) (n : Nat)
    (hn : n < pre.length) : (wrapPayloads pre q)[n]? = pre[n]? := by
  unfold wrapPayloads
  exact List.getElem?_append_left hn

/-- C1. Round trip: for every payload `P` shorter than `2^32` bytes, every
chunk size `C` with `1 ≤ C` (an `unsigned`, so below `2^32`) and every
channel id `i`, `join (split P C i) i = P`; the empty payload included. -/
theorem join_split_roundtrip (P : List Byte) (C i : Nat) (hC : 1 ≤ C) (hCW : C < 2 ^ 32)
    (hP : P.length < 2 ^ 32) : join (split P C i) i = P := by
  rw [← W_eq] at hCW hP
  refine @join_of_channel_eq_split _ i P C i hC hCW hP ?_
  rw [sort_eq_self (split_sorted P C i hC hCW hP), channel_split_self P C i hC hCW hP]

theorem join_split_roundtrip_witness :
    join (split [104, 101, 108, 108, 111] 2 7) 7 = [104, 101, 108, 108, 111] ∧
      join (split [] 48 0) 0 = [] :=
  ⟨join_split_roundtrip [104, 101, 108, 108, 111] 2 7 (by decide) (by decide) (by decide),
    join_split_roundtrip [] 48 0 (by decide) (by decide) (by decide)⟩

/-- C2, as stated, fails: with `2^32 + 1` payloads the channel counter wraps,
the last payload is cut into channel 0, and `join` returns it where the
payload at index 0 is the empty one. -/
theorem join_splitAll_wraps :
    (wrapPayloads [[]] [1])[0]? = some [] ∧
      join (splitAll (wrapPayloads [[]] [1]) 1) 0 = [1] := by
  constructor
  · rw [wrapPayloads_getElem? [[]] [1] 0 (by decide)]
    rfl
  · rw [splitAll_wrapPayloads]
    decide

/-- C2, amended. Multi-channel round trip: for at most `2^32` payloads, each
shorter than `2^32` bytes, every chunk size `C` with `1 ≤ C < 2^32` and every
index `i` of a payload, `join (splitAll payloads C) i` is the payload at
index `i`. -/
theorem join_splitAll_roundtrip (payloads : List (List Byte)) (C i : Nat) (hC : 1 ≤ C)
    (hCW : C < 2 ^ 32) (hN : payloads.length ≤ 2 ^ 32)
    (hL : ∀ p ∈ payloads, p.length < 2 ^ 32) (hi : i < payloads.length) :
    join (splitAll payloads C) i = payloads[i] := by
  rw [join_splitAll (noWrap_intro hC hCW hN hL) i, List.getD_eq_getElem _ _ hi]

theorem join_splitAll_roundtrip_witness :
    join (splitAll [[1, 2, 3, 4], [5, 6, 7]] 3) 0 = [1, 2, 3, 4] ∧
      join (splitAll [[1, 2, 3, 4], [5, 6, 7]] 3) 1 = [5, 6, 7] :=
  ⟨join_splitAll_roundtrip [[1, 2, 3, 4], [5, 6, 7]] 3 0 (by decide) (by decide) (by decide)
      (by decide) (by decide),
    join_splitAll_roundtrip [[1, 2, 3, 4], [5, 6, 7]] 3 1 (by decide) (by decide) (by decide)
      (by decide) (by decide)⟩
/-! ## Reordering, loss and duplication -/

/-- C3, as stated, fails: with `2^32 + 1` payloads two fragments carry the
key `(0, 0)`; `sort` keeps the one that comes first, so swapping them changes
what `join` returns. -/
theorem join_perm_wraps :
    List.Perm [⟨0, 0, 1, [2]⟩, ⟨0, 0, 1, [1]⟩] (splitAll (wrapPayloads [[1]] [2]) 1) ∧
      join [⟨0, 0, 1, [2]⟩, ⟨0, 0, 1, [1]⟩] 0 ≠ join (splitAll (wrapPayloads [[1]] [2]) 1) 0 := by
  rw [splitAll_wrapPayloads]
  decide

/-- C3, amended. Order invariance: for at most `2^32` payloads, each shorter
than `2^32` bytes, and a chunk size `C` with `1 ≤ C < 2^32`, every
permutation of `splitAll payloads C` joins, on every channel `i`, to what the
unpermuted set joins to, which is the payload at index `i`. -/
theorem join_perm_invariant (payloads : List (List Byte)) (C : Nat) (hC : 1 ≤ C)
    (hCW : C < 2 ^ 32) (hN : payloads.length ≤ 2 ^ 32)
    (hL : ∀ p ∈ payloads, p.length < 2 ^ 32) (fs2 : fragments)
    (hp : fs2.Perm (splitAll payloads C)) (i : Nat) :
    join fs2 i = join (splitAll payloads C) i ∧
      ∀ hi : i < payloads.length, join fs2 i = payloads[i] := by
  have h := noWrap_intro hC hCW hN hL
  have hsort : sort fs2 = sort (splitAll payloads C) :=
    sort_congr (sorted_keyFunctional (splitAll_sorted h)) (fun x => hp.mem_iff)
  refine ⟨join_congr hsort i, ?_⟩
  intro hi
  rw [join_congr hsort i, join_splitAll h i, List.getD_eq_getElem _ _ hi]

theorem join_perm_invariant_witness :
    join (splitAll [[1, 2, 3, 4], [5, 6, 7]] 3).reverse 1 =
        join (splitAll [[1, 2, 3, 4], [5, 6, 7]] 3) 1 ∧
      ∀ hi : 1 < [[1, 2, 3, 4], [5, 6, 7]].length,
        join (splitAll [[1, 2, 3, 4], [5, 6, 7]] 3).reverse 1 = [[1, 2, 3, 4], [5, 6, 7]][1] :=
  join_perm_invariant [[1, 2, 3, 4], [5, 6, 7]] 3 (by decide) (by decide) (by decide)
    (by decide) (splitAll [[1, 2, 3, 4], [5, 6, 7]] 3).reverse (List.reverse_perm _) 1

/-- C4, as stated, fails: with `2^32 + 1` payloads channel 0 holds two
fragments that each declare a total of 1; with one of them removed the
channel is at `eof` and joins to a non-empty payload. -/
theorem loss_undetected_wraps :
    (splitAll (wrapPayloads [[1]] [2]) 1)[0]? = some ⟨0, 0, 1, [1]⟩ ∧
      eof ((splitAll (wrapPayloads [[1]] [2]) 1).eraseIdx 0) 0 = true ∧
      join ((splitAll (wrapPayloads [[1]] [2]) 1).eraseIdx 0) 0 = [2] := by
  rw [splitAll_wrapPayloads]
  decide

/-- C4, amended. Loss detection: for at most `2^32` payloads, each shorter
than `2^32` bytes, and a chunk size `C` with `1 ≤ C < 2^32`, removing the
fragment at any position `k` of `splitAll payloads C` leaves the channel of
that fragment not at `eof`, and `join` returns the empty payload for it. -/
theorem loss_detected (payloads : List (List Byte)) (C : Nat) (hC : 1 ≤ C)
    (hCW : C < 2 ^ 32) (hN : payloads.length ≤ 2 ^ 32)
    (hL : ∀ p ∈ payloads, p.length < 2 ^ 32) (k : Nat)
    (hk : k < (splitAll payloads C).length) :
    eof ((splitAll payloads C).eraseIdx k) (splitAll payloads C)[k].id = false ∧
      join ((splitAll payloads C).eraseIdx k) (splitAll payloads C)[k].id = [] := by
  have h := lose_one (noWrap_intro hC hCW hN hL) (List.Perm.refl _) k hk
  exact ⟨h.1, h.2.1⟩

theorem loss_detected_witness :
    eof ((splitAll [[1, 2, 3, 4], [5, 6, 7]] 3).eraseIdx 1) 0 = false ∧
      join ((splitAll [[1, 2, 3, 4], [5, 6, 7]] 3).eraseIdx 1) 0 = [] :=
  loss_detected [[1, 2, 3, 4], [5, 6, 7]] 3 (by decide) (by decide) (by decide) (by decide) 1
    (by decide)

/-- C5, as stated, fails: with `2^32 + 1` payloads the last one is cut into
channel 0; after the only fragment of channel 1 is removed, channel 0 joins
to the last payload and not to the empty payload at index 0. -/
theorem isolation_wraps :
    (wrapPayloads [[], [3]] [2])[0]? = some [] ∧
      (splitAll (wrapPayloads [[], [3]] [2]) 1)[0]? = some ⟨1, 0, 1, [3]⟩ ∧
      join ((splitAll (wrapPayloads [[], [3]] [2]) 1).eraseIdx 0) 0 = [2] := by
  constructor
  · rw [wrapPayloads_getElem? [[], [3]] [2] 0 (by decide)]
    rfl
  · rw [splitAll_wrapPayloads]
    decide

/-- C5, amended. Channel isolation under loss: for at most `2^32` payloads,
each shorter than `2^32` bytes, and a chunk size `C` with `1 ≤ C < 2^32`,
after any permutation of `splitAll payloads C` and the removal of the
fragment at any position `k`, every channel other than that of the removed
fragment joins to its payload, while the channel of the removed fragment, a
channel of a non-empty payload, joins to the empty payload: exactly one
channel fails to reconstruct. -/
theorem isolation_under_loss (payloads : List (List Byte)) (C : Nat) (hC : 1 ≤ C)
    (hCW : C < 2 ^ 32) (hN : payloads.length ≤ 2 ^ 32)
    (hL : ∀ p ∈ payloads, p.length < 2 ^ 32) (fs2 : fragments)
    (hp : fs2.Perm (splitAll payloads C)) (k : Nat) (hk : k < fs2.length) :
    (∀ i (hi : i < payloads.length), i ≠ fs2[k].id →
        join (fs2.eraseIdx k) i = payloads[i]) ∧
      ∃ hj : fs2[k].id < payloads.length,
        join (fs2.eraseIdx k) fs2[k].id = [] ∧ payloads[fs2[k].id] ≠ [] := by
  obtain ⟨_, h2, h3, h4⟩ := lose_one (noWrap_intro hC hCW hN hL) hp k hk
  constructor
  · intro i hi hne
    rw [h4 i hne, List.getD_eq_getElem _ _ hi]
  · have hj : fs2[k].id < payloads.length := by
      by_contra hge
      exact h3 (List.getD_eq_default _ _ (Nat.le_of_not_lt hge))
    refine ⟨hj, h2, ?_⟩
    rw [← List.getD_eq_getElem _ [] hj]
    exact h3

theorem isolation_under_loss_witness :
    (∀ i (hi : i < [[1, 2, 3, 4], [5, 6, 7]].length),
        i ≠ ((splitAll [[1, 2, 3, 4], [5, 6, 7]] 3).reverse)[0].id →
        join ((splitAll [[1, 2, 3, 4], [5, 6, 7]] 3).reverse.eraseIdx 0) i =
          [[1, 2, 3, 4], [5, 6, 7]][i]) ∧
      ∃ hj : ((splitAll [[1, 2, 3, 4], [5, 6, 7]] 3).reverse)[0].id <
          [[1, 2, 3, 4], [5, 6, 7]].length,
        join ((splitAll [[1, 2, 3, 4], [5, 6, 7]] 3).reverse.eraseIdx 0)
            ((splitAll [[1, 2, 3, 4], [5, 6, 7]] 3).reverse)[0].id = [] ∧
          ([[1, 2, 3, 4], [5, 6, 7]] : List (List Byte))[
            ((splitAll [[1, 2, 3, 4], [5, 6, 7]] 3).reverse)[0].id] ≠ [] :=
  isolation_under_loss [[1, 2, 3, 4], [5, 6, 7]] 3 (by decide) (by decide) (by decide)
    (by decide) (splitAll [[1, 2, 3, 4], [5, 6, 7]] 3).reverse (List.reverse_perm _) 0
    (by decide)

/-- C6, as stated, fails, in two ways. A duplicate by channel id, sequence
number and payload may differ in `left`: put in front of the fragments of a
two-byte payload, it is the one `sort` keeps, `integrity` starts its counter
from the total it declares, and `join` returns the empty payload. And with
`2^32 + 1` payloads two fragments carry the key `(0, 0)`: an exact copy of
the second one inserted in front of the first is the one `sort` keeps, and
`join` changes. -/
theorem duplicate_changes_join :
    (splitAll [[1, 2]] 1 = [] ++ [⟨0, 0, 2, [1]⟩, ⟨0, 1, 1, [2]⟩] ∧
        join (splitAll [[1, 2]] 1) 0 = [1, 2] ∧
        join ([] ++ ⟨0, 0, 5, [1]⟩ :: [⟨0, 0, 2, [1]⟩, ⟨0, 1, 1, [2]⟩]) 0 = []) ∧
      (splitAll (wrapPayloads [[1]] [2]) 1 = [] ++ [⟨0, 0, 1, [1]⟩, ⟨0, 0, 1, [2]⟩] ∧
        join ([] ++ ⟨0, 0, 1, [2]⟩ :: [⟨0, 0, 1, [1]⟩, ⟨0, 0, 1, [2]⟩]) 0 ≠
          join (splitAll (wrapPayloads [[1]] [2]) 1) 0) := by
  constructor
  · decide
  · rw [splitAll_wrapPayloads]
    decide

/-- C6, amended. Duplicate invariance: for at most `2^32` payloads, each
shorter than `2^32` bytes, and a chunk size `C` with `1 ≤ C < 2^32`,
inserting at any position of `splitAll payloads C` a duplicate `g` of one of
its fragments `f`, with the same channel id, sequence number, `left` and
payload, changes `join` on no channel. -/
theorem join_duplicate_invariant (payloads : List (List Byte)) (C : Nat) (hC : 1 ≤ C)
    (hCW : C < 2 ^ 32) (hN : payloads.length ≤ 2 ^ 32)
    (hL : ∀ p ∈ payloads, p.length < 2 ^ 32) (l₁ l₂ : fragments) (f g : fragment)
    (hfs : splitAll payloads C = l₁ ++ l₂) (hf : f ∈ splitAll payloads C)
    (hid : g.id = f.id) (hseq : g.seq = f.seq) (hleft : g.left = f.left)
    (hpay : g.payload = f.payload) (i : Nat) :
    join (l₁ ++ g :: l₂) i = join (splitAll payloads C) i := by
  have hgf : g = f := by
    cases g
    cases f
    simp only at hid hseq hleft hpay
    rw [hid, hseq, hleft, hpay]
  have h := noWrap_intro hC hCW hN hL
  apply join_congr
  apply sort_congr (sorted_keyFunctional (splitAll_sorted h))
  intro x
  rw [hfs] at hf ⊢
  simp only [List.mem_append, List.mem_cons] at hf ⊢
  constructor
  · rintro (hx | hx | hx)
    · exact Or.inl hx
    · rw [hx, hgf]
      exact hf
    · exact Or.inr hx
  · rintro (hx | hx)
    · exact Or.inl hx
    · exact Or.inr (Or.inr hx)

theorem join_duplicate_invariant_witness :
    join ([⟨0, 0, 2, [1, 2, 3]⟩] ++ ⟨1, 0, 1, [5, 6, 7]⟩ ::
        [⟨0, 1, 1, [4]⟩, ⟨1, 0, 1, [5, 6, 7]⟩]) 0 =
      join (splitAll [[1, 2, 3, 4], [5, 6, 7]] 3) 0 :=
  join_duplicate_invariant [[1, 2, 3, 4], [5, 6, 7]] 3 (by decide) (by decide) (by decide)
    (by decide) [⟨0, 0, 2, [1, 2, 3]⟩] [⟨0, 1, 1, [4]⟩, ⟨1, 0, 1, [5, 6, 7]⟩]
    ⟨1, 0, 1, [5, 6, 7]⟩ ⟨1, 0, 1, [5, 6, 7]⟩ (by decide) (by decide) rfl rfl rfl rfl 0

/-- C7. Canonicalization: for every fragment set `fs`, `sort fs` is strictly
ascending in `(id, seq)` lexicographic order, every fragment of `sort fs` is a
fragment of `fs`, and every `(id, seq)` pair of `fs` occurs in `sort fs`. -/
theorem sort_canonical (fs : fragments) :
    (sort fs).Pairwise (fun a b => a.id < b.id ∨ (a.id = b.id ∧ a.seq < b.seq)) ∧
      (∀ g ∈ sort fs, g ∈ fs) ∧
      (∀ f ∈ fs, ∃ g ∈ sort fs, g.id = f.id ∧ g.seq = f.seq) :=
  ⟨sort_sorted fs, fun _ hg => mem_of_mem_sort hg, fun _ hf => key_mem_sort hf⟩

theorem getElem?_split (P : List Byte) (C i k : Nat) (hC : 1 ≤ C) (hCW : C < W)
    (hP : P.length < W) (hk : k < chunkCount P.length C) :
    (split P C i)[k]? = some (fragmentAt P C i k) := by
  rw [split_eq P C i hC hCW hP, List.getElem?_map, List.getElem?_range hk]
  rfl

/-- C8. Chunking: for every payload `P` shorter than `2^32` bytes, chunk size
`C` with `1 ≤ C` (an `unsigned`, so below `2^32`) and channel id `i`,
`split P C i` has the length of `P` divided by `C`, rounded up, fragments,
and the fragment at position `k` has channel id `i`, sequence number `k` and
as payload the at most `C` bytes of `P` from offset `k * C` on. -/
theorem split_chunks (P : List Byte) (C i : Nat) (hC : 1 ≤ C) (hCW : C < 2 ^ 32)
    (hP : P.length < 2 ^ 32) :
    (split P C i).length = (P.length + C - 1) / C ∧
      ∀ (k : Nat) (hk : k < (split P C i).length),
        (split P C i)[k].id = i ∧ (split P C i)[k].seq = k ∧
          (split P C i)[k].payload = (P.drop (k * C)).take C := by
  rw [← W_eq] at hCW hP
  have hlen := split_length P C i hC hCW hP
  refine ⟨hlen, ?_⟩
  intro k hk
  have hk' : k < chunkCount P.length C := hlen ▸ hk
  have hget := getElem?_split P C i k hC hCW hP hk'
  rw [List.getElem?_eq_getElem hk] at hget
  rw [Option.some.inj hget]
  exact ⟨rfl, rfl, rfl⟩

theorem split_chunks_witness :
    (split [1, 2, 3, 4, 5, 6, 7] 3 9).length = (7 + 3 - 1) / 3 ∧
      ∀ (k : Nat) (hk : k < (split [1, 2, 3, 4, 5, 6, 7] 3 9).length),
        (split [1, 2, 3, 4, 5, 6, 7] 3 9)[k].id = 9 ∧
          (split [1, 2, 3, 4, 5, 6, 7] 3 9)[k].seq = k ∧
          (split [1, 2, 3, 4, 5, 6, 7] 3 9)[k].payload =
            (([1, 2, 3, 4, 5, 6, 7] : List Byte).drop (k * 3)).take 3 :=
  split_chunks [1, 2, 3, 4, 5, 6, 7] 3 9 (by decide) (by decide) (by decide)

theorem chunkCount_of_dvd {len bytes : Nat} (h0 : 1 ≤ bytes) (hd : bytes ∣ len) :
    chunkCount len bytes = len / bytes := by
  obtain ⟨m, rfl⟩ := hd
  rw [Nat.mul_div_cancel_left m (by omega)]
  unfold chunkCount
  apply Nat.div_eq_of_lt_le
  · rw [Nat.mul_comm m bytes]
    omega
  · rw [Nat.add_mul, Nat.one_mul, Nat.mul_comm m bytes]
    omega

/-- C9. No empty fragment: for every payload `P`, chunk size `C` and channel
id `i`, no fragment of `split P C i` has an empty payload, and `split` of the
empty payload is the empty fragment set; when the length of `P`, below
`2^32`, is an exact multiple of `C`, with `1 ≤ C < 2^32`, there are exactly
length / `C` fragments, so none trails. -/
theorem split_no_empty_fragment (P : List Byte) (C i : Nat) :
    (∀ f ∈ split P C i, f.payload ≠ []) ∧ split [] C i = [] ∧
      (1 ≤ C → C < 2 ^ 32 → P.length < 2 ^ 32 → C ∣ P.length →
        (split P C i).length = P.length / C) := by
  refine ⟨fun f hf => (mem_split_inv hf).2.2.1, split_nil C i, ?_⟩
  intro hC hCW hP hd
  rw [← W_eq] at hCW hP
  rw [split_length P C i hC hCW hP, chunkCount_of_dvd hC hd]

theorem split_no_empty_fragment_witness :
    (split [1, 2, 3, 4, 5, 6] 3 0).length = 6 / 3 :=
  (split_no_empty_fragment [1, 2, 3, 4, 5, 6] 3 0).2.2 (by decide) (by decide) (by decide)
    (by decide)

/-- C10, as stated, fails: `split` sets `left` to the number of fragments
minus the sequence number, without the `- 1`: the first of two fragments has
`left = 2`, and `left + seq = 2` is the number of fragments, not one less. -/
theorem split_left_not_pred :
    (split [1, 2] 1 0).length = 2 ∧
      ∃ f ∈ split [1, 2] 1 0, f.seq = 0 ∧ f.left = 2 ∧
        f.left ≠ (split [1, 2] 1 0).length - 1 - f.seq ∧
        f.left + f.seq ≠ (split [1, 2] 1 0).length - 1 := by
  decide

/-- C10, amended. Remaining count: for every payload `P`, chunk size `C` and
fragment `f` of `fs = split P C i`, `f.left` is the number of fragments of
`fs` minus `f.seq`, in `unsigned` arithmetic, and `f.total` is the number of
fragments modulo `2^32`; when `P` is shorter than `2^32` bytes and
`1 ≤ C < 2^32` nothing wraps: `f.left` is the number of fragments minus
`f.seq`, counting `f` and the fragments after it, and `left + seq` is the
number of fragments. -/
theorem split_left_counts (P : List Byte) (C i : Nat) :
    (∀ f ∈ split P C i, f.seq < 2 ^ 32 ∧
        f.left = ((split P C i).length % 2 ^ 32 + 2 ^ 32 - f.seq) % 2 ^ 32 ∧
        f.total = (split P C i).length % 2 ^ 32) ∧
      (1 ≤ C → C < 2 ^ 32 → P.length < 2 ^ 32 →
        ∀ f ∈ split P C i, f.seq < (split P C i).length ∧
          f.left = (split P C i).length - f.seq ∧
          f.left + f.seq = (split P C i).length ∧ f.total = (split P C i).length) := by
  constructor
  · intro f hf
    rw [← W_eq]
    exact ⟨(mem_split_inv hf).2.1, (mem_split_inv hf).2.2.2, total_of_mem_split_inv hf⟩
  · intro hC hCW hP f hf
    rw [← W_eq] at hCW hP
    have ht := total_of_mem_split hC hCW hP hf
    rw [split_length P C i hC hCW hP]
    obtain ⟨j, hj, rfl⟩ := mem_split hC hCW hP hf
    refine ⟨hj, rfl, ?_, ht⟩
    show chunkCount P.length C - j + j = chunkCount P.length C
    omega

theorem split_left_counts_witness :
    ∀ f ∈ split [1, 2, 3, 4, 5, 6, 7] 3 0, f.seq < (split [1, 2, 3, 4, 5, 6, 7] 3 0).length ∧
      f.left = (split [1, 2, 3, 4, 5, 6, 7] 3 0).length - f.seq ∧
      f.left + f.seq = (split [1, 2, 3, 4, 5, 6, 7] 3 0).length ∧
      f.total = (split [1, 2, 3, 4, 5, 6, 7] 3 0).length :=
  (split_left_counts [1, 2, 3, 4, 5, 6, 7] 3 0).2 (by decide) (by decide) (by decide)
/-! ## Channels of `split` on a vector of strings -/

theorem mem_splitFrom {bytes : Nat} (data : List (List Byte)) (k : Nat) {f : fragment}
    (hf : f ∈ splitFrom bytes k data) :
    ∃ j, ∃ hj : j < data.length, f ∈ split data[j] bytes (k + j) := by
  induction data generalizing k with
  | nil => cases hf
  | cons d ds ih =>
    simp only [splitFrom, List.mem_append] at hf
    rcases hf with hf | hf
    · exact ⟨0, Nat.zero_lt_succ _, hf⟩
    · obtain ⟨j, hj, hm⟩ := ih (k + 1) hf
      refine ⟨j + 1, Nat.succ_lt_succ hj, ?_⟩
      have e : k + 1 + j = k + (j + 1) := by omega
      rw [e] at hm
      exact hm

theorem splitFrom_append (bytes k : Nat) (l₁ l₂ : List (List Byte)) :
    splitFrom bytes k (l₁ ++ l₂) = splitFrom bytes k l₁ ++ splitFrom bytes (k + l₁.length) l₂ := by
  induction l₁ generalizing k with
  | nil => simp [splitFrom]
  | cons d ds ih =>
    have e : k + 1 + ds.length = k + (ds.length + 1) := by omega
    have hc : splitFrom bytes k (d :: (ds ++ l₂)) =
        split d bytes k ++ splitFrom bytes (k + 1) (ds ++ l₂) := rfl
    have hd : splitFrom bytes k (d :: ds) = split d bytes k ++ splitFrom bytes (k + 1) ds := rfl
    rw [List.cons_append, hc, hd, ih, List.append_assoc, List.length_cons, e]

theorem splitFrom_replicate (bytes k n : Nat) :
    splitFrom bytes k (List.replicate n []) = [] := by
  induction n generalizing k with
  | zero => rfl
  | succ n ih =>
    rw [List.replicate_succ]
    simp only [splitFrom, split_nil, ih, List.append_nil]

theorem splitFrom_wrapPayloads (pre : List (List Byte)) (q : List Byte) (bytes : Nat) :
    splitFrom bytes 0 (wrapPayloads pre q) =
      splitFrom bytes 0 pre ++ split q bytes (0 + pre.length + (4294967296 - pre.length)) := by
  unfold wrapPayloads
  rw [splitFrom_append, splitFrom_append, splitFrom_replicate, List.length_replicate]
  simp only [splitFrom, List.nil_append, List.append_nil]

/-- C11, as stated, fails: with `2^32 + 1` payloads the last one is cut into
channel 0 as well, and the fragments of the two payloads of channel 0 report
different totals. -/
theorem total_not_uniform_wraps :
    ∃ f ∈ splitAll (wrapPayloads [[1]] [2, 3]) 1,
      ∃ g ∈ splitAll (wrapPayloads [[1]] [2, 3]) 1, f.id = g.id ∧ f.total ≠ g.total := by
  rw [splitAll_wrapPayloads]
  decide

/-- C11, amended. Uniform total: for at most `2^32` payloads and every chunk
size `C`, any two fragments of `splitAll payloads C` with the same channel
id report the same total. -/
theorem total_uniform (payloads : List (List Byte)) (C : Nat) (hN : payloads.length ≤ 2 ^ 32)
    (f g : fragment) (hf : f ∈ splitAll payloads C) (hg : g ∈ splitAll payloads C)
    (hid : f.id = g.id) : f.total = g.total := by
  rw [← W_eq] at hN
  rw [splitAll_eq payloads C hN] at hf hg
  obtain ⟨j, hj, hfj⟩ := mem_splitFrom payloads 0 hf
  obtain ⟨j2, hj2, hgj⟩ := mem_splitFrom payloads 0 hg
  have e1 := (mem_split_inv hfj).1
  have e2 := (mem_split_inv hgj).1
  have e : j = j2 := by omega
  subst e
  rw [total_of_mem_split_inv hfj, total_of_mem_split_inv hgj]

theorem total_uniform_witness :
    (⟨1, 0, 2, [4, 5, 6]⟩ : fragment).total = (⟨1, 1, 1, [7]⟩ : fragment).total :=
  total_uniform [[1, 2, 3], [4, 5, 6, 7]] 3 (by decide) ⟨1, 0, 2, [4, 5, 6]⟩ ⟨1, 1, 1, [7]⟩
    (by decide) (by decide) (by decide)

/-- C12, as stated, fails: with `2^32 + 1` payloads the payload at index
`2^32` is cut with channel id 0, not `2^32`, and shares the channel of the
payload at index 0. -/
theorem splitAll_wraps :
    splitAll (wrapPayloads [[1]] [2]) 1 = [⟨0, 0, 1, [1]⟩, ⟨0, 0, 1, [2]⟩] ∧
      splitFrom 1 0 (wrapPayloads [[1]] [2]) =
        [⟨0, 0, 1, [1]⟩, ⟨4294967296, 0, 1, [2]⟩] := by
  rw [splitAll_wrapPayloads, splitFrom_wrapPayloads]
  decide

/-- C12, amended. Multi-payload split: for at most `2^32` payloads and every
chunk size `C`, `splitAll payloads C` is the concatenation, in input order,
of `split P0 C 0`, `split P1 C 1`, ...; every fragment of it is cut from the
payload whose index is its channel id, and fragments cut from payloads at
distinct indices have distinct channel ids. -/
theorem splitAll_concat (payloads : List (List Byte)) (C : Nat)
    (hN : payloads.length ≤ 2 ^ 32) :
    splitAll payloads C = splitFrom C 0 payloads ∧
      (∀ f ∈ splitAll payloads C,
        ∃ hj : f.id < payloads.length, f ∈ split payloads[f.id] C f.id) ∧
      (∀ (j k : Nat) (hj : j < payloads.length) (hk : k < payloads.length),
        ∀ f ∈ split payloads[j] C j, ∀ g ∈ split payloads[k] C k, f.id = g.id → j = k) := by
  rw [← W_eq] at hN
  refine ⟨splitAll_eq payloads C hN, ?_, ?_⟩
  · intro f hf
    rw [splitAll_eq payloads C hN] at hf
    obtain ⟨j, hj, hfj⟩ := mem_splitFrom payloads 0 hf
    rw [Nat.zero_add] at hfj
    have e := (mem_split_inv hfj).1
    subst e
    exact ⟨hj, hfj⟩
  · intro j k _ _ f hf g hg hid
    rw [(mem_split_inv hf).1, (mem_split_inv hg).1] at hid
    exact hid

theorem splitAll_concat_witness :
    splitAll [[1, 2, 3], [4, 5, 6, 7]] 3 = splitFrom 3 0 [[1, 2, 3], [4, 5, 6, 7]] :=
  (splitAll_concat [[1, 2, 3], [4, 5, 6, 7]] 3 (by decide)).1
/-! ## `integrity`, `eof` and `join` on arbitrary fragment sets -/

theorem channel_seq_sorted (fs : fragments) (i : Nat) :
    (channel (sort fs) i).Pairwise (fun a b => a.seq < b.seq) := by
  have h : (channel (sort fs) i).Pairwise keyLt := (sort_sorted fs).filter _
  refine h.imp_of_mem ?_
  intro a b ha hb hab
  have ea : a.id = i := by simpa using (List.mem_filter.1 ha).2
  have eb : b.id = i := by simpa using (List.mem_filter.1 hb).2
  unfold keyLt at hab
  omega

theorem miss_counter {fs : fragments} {i : Nat} {f0 : fragment} {rest : fragments}
    (hc : channel (sort fs) i = f0 :: rest) :
    mapFind (integrity fs) i = some ((f0.total + (rest.length + 1) * (W - 1)) % W) := by
  rw [mapFind_integrity, hc]
  simp only []
  rw [decr_succ]

theorem total_lt (f : fragment) : f.total < W := by
  unfold fragment.total
  apply Nat.mod_lt
  unfold W
  omega

theorem integrity_congr {fs fs' : fragments} (h : sort fs' = sort fs) :
    integrity fs' = integrity fs := by
  unfold integrity
  rw [h]

/-- C13. All-or-nothing join: for every fragment set `fs` and channel id `i`,
`join fs i` is the concatenation of the payloads of the fragments of
`sort fs` with channel id `i`, which come in ascending sequence order, when
`eof fs i` is true, and the empty payload when `eof fs i` is false. -/
theorem join_all_or_nothing (fs : fragments) (i : Nat) :
    join fs i =
        (if eof fs i = true then
          ((sort fs).filter (fun f => f.id = i)).flatMap (fun f => f.payload)
        else []) ∧
      ((sort fs).filter (fun f => f.id = i)).Pairwise (fun a b => a.seq < b.seq) :=
  ⟨join_eq fs i, channel_seq_sorted fs i⟩

/-- C14, as stated, fails: a lone fragment with sequence number 0 reporting
total 0 covers the sequence numbers `0..0`, yet `integrity` starts its
counter at `total - 1`, which wraps, and the channel is not at `eof`. -/
theorem complete_channel_off_by_one :
    (channel (sort [⟨0, 0, 0, [1]⟩]) 0).map (fun f => f.seq) = List.range (0 + 1) ∧
      (∀ f ∈ channel (sort [⟨0, 0, 0, [1]⟩]) 0, f.total = 0) ∧
      eof [⟨0, 0, 0, [1]⟩] 0 = false ∧ join [⟨0, 0, 0, [1]⟩] 0 = [] := by
  decide

/-- C14, amended. Complete channel: for every fragment set `fs`, channel id
`i` and `t ≥ 1` such that the fragments of channel `i` in `sort fs` have
exactly the sequence numbers `0, 1, ..., t - 1` and each reports total `t`
(the number of fragments), `eof fs i` is true and `join fs i` is the
concatenation of their payloads in sequence order. -/
theorem complete_channel (fs : fragments) (i t : Nat) (ht : 1 ≤ t)
    (hseq : (channel (sort fs) i).map (fun f => f.seq) = List.range t)
    (htot : ∀ f ∈ channel (sort fs) i, f.total = t) :
    eof fs i = true ∧ join fs i = concatPayloads (channel (sort fs) i) := by
  have hlen : (channel (sort fs) i).length = t := by
    have := congrArg List.length hseq
    simpa using this
  have he : eof fs i = true := by
    rw [eof_eq]
    cases hc : channel (sort fs) i with
    | nil =>
      rw [hc] at hlen
      simp only [List.length_nil] at hlen
      omega
    | cons f0 rest =>
      rw [hc] at hlen htot
      simp only [List.length_cons] at hlen
      have h0 : f0.total = t := htot f0 (List.mem_cons_self _ _)
      simp only [h0, hlen]
      rw [decr_self ht]
      rfl
  refine ⟨he, ?_⟩
  rw [join_eq, he, if_pos rfl]

theorem complete_channel_witness :
    eof [⟨3, 1, 1, [8]⟩, ⟨3, 0, 2, [7]⟩] 3 = true ∧
      join [⟨3, 1, 1, [8]⟩, ⟨3, 0, 2, [7]⟩] 3 =
        concatPayloads (channel (sort [⟨3, 1, 1, [8]⟩, ⟨3, 0, 2, [7]⟩]) 3) :=
  complete_channel [⟨3, 1, 1, [8]⟩, ⟨3, 0, 2, [7]⟩] 3 2 (by decide) (by decide) (by decide)

/-- C15, as stated, fails: for a lone fragment of total 1 the claim gives the
miss counter `1 - (1 - 1) = 1`, while `integrity` starts the counter at
`total - 1` and maps the channel to 0. -/
theorem miss_counter_off_by_one :
    channel (sort [⟨0, 0, 1, [1]⟩]) 0 = [⟨0, 0, 1, [1]⟩] ∧
      (⟨0, 0, 1, [1]⟩ : fragment).total - (1 - 1) = 1 ∧
      mapFind (integrity [⟨0, 0, 1, [1]⟩]) 0 = some 0 := by
  decide

/-- C15, amended. Miss counter: for every fragment set `fs` and channel id
`i` whose fragments in `sort fs` are `f0` followed by `rest`, so `k` is
`rest.length + 1`, `integrity fs` maps `i` to `total f0 - k` modulo `2^32`:
the counter starts at `total - 1` on first sight and goes down by 1 for each
further fragment. -/
theorem miss_counter_value (fs : fragments) (i : Nat) (f0 : fragment) (rest : fragments)
    (hc : channel (sort fs) i = f0 :: rest) :
    ∃ v, mapFind (integrity fs) i = some v ∧ v < 2 ^ 32 ∧
      (v : Int) = ((f0.total : Int) - ((rest.length : Int) + 1)) % 2 ^ 32 := by
  refine ⟨_, miss_counter hc, ?_, ?_⟩
  · unfold W
    omega
  · unfold W
    omega

theorem miss_counter_value_witness :
    ∃ v, mapFind (integrity [⟨3, 1, 1, [8]⟩, ⟨3, 0, 2, [7]⟩, ⟨4, 5, 0, []⟩]) 4 = some v ∧
      v < 2 ^ 32 ∧
      (v : Int) = (((⟨4, 5, 0, []⟩ : fragment).total : Int) -
        ((([] : fragments).length : Int) + 1)) % 2 ^ 32 :=
  miss_counter_value [⟨3, 1, 1, [8]⟩, ⟨3, 0, 2, [7]⟩, ⟨4, 5, 0, []⟩] 4 ⟨4, 5, 0, []⟩ []
    (by decide)

/-- C16. Unknown channel: for every fragment set `fs` and channel id `i` that
no fragment of `fs` carries, `eof fs i` is false and `join fs i` is the empty
payload. -/
theorem unknown_channel (fs : fragments) (i : Nat) (h : ∀ f ∈ fs, f.id ≠ i) :
    eof fs i = false ∧ join fs i = [] := by
  have hc : channel (sort fs) i = [] := by
    unfold channel
    rw [List.filter_eq_nil_iff]
    intro f hf
    simpa using h f (mem_of_mem_sort hf)
  exact ⟨eof_of_channel_nil hc, join_of_eof_false (eof_of_channel_nil hc)⟩

theorem unknown_channel_witness :
    eof [⟨3, 1, 1, [8]⟩, ⟨3, 0, 2, [7]⟩] 5 = false ∧
      join [⟨3, 1, 1, [8]⟩, ⟨3, 0, 2, [7]⟩] 5 = [] :=
  unknown_channel [⟨3, 1, 1, [8]⟩, ⟨3, 0, 2, [7]⟩] 5 (by decide)

/-- C17. Incomplete channel: for every fragment set `fs` and channel id `i`
whose fragments in `sort fs` are `f0` followed by `rest`, if their number is
smaller than the total `f0` declares, `eof fs i` is false and `join fs i` is
the empty payload. -/
theorem incomplete_channel (fs : fragments) (i : Nat) (f0 : fragment) (rest : fragments)
    (hc : channel (sort fs) i = f0 :: rest) (hlt : rest.length + 1 < f0.total) :
    eof fs i = false ∧ join fs i = [] := by
  have ht := total_lt f0
  have he : eof fs i = false := by
    unfold eof
    rw [miss_counter hc]
    have hne : (f0.total + (rest.length + 1) * (W - 1)) % W ≠ 0 := by
      unfold W at *
      omega
    simpa using hne
  exact ⟨he, join_of_eof_false he⟩

theorem incomplete_channel_witness :
    eof [⟨3, 2, 1, [8]⟩, ⟨3, 0, 3, [7]⟩] 3 = false ∧
      join [⟨3, 2, 1, [8]⟩, ⟨3, 0, 3, [7]⟩] 3 = [] :=
  incomplete_channel [⟨3, 2, 1, [8]⟩, ⟨3, 0, 3, [7]⟩] 3 ⟨3, 0, 3, [7]⟩ [⟨3, 2, 1, [8]⟩]
    (by decide) (by decide)
/-! ## Concatenation and the count-based completeness check -/

theorem add_eq (a b : fragments) : fragments.add a b = b ++ a := by
  unfold fragments.add
  rw [addAssign_eq]

/-- C18, as stated, fails: when `a` and `b` hold fragments with the same
`(id, seq)` but different `left` and payload, `sort` keeps the one that comes
first, and `integrity` and `joins` of `a + b` and of `b + a` differ. -/
theorem add_order_matters :
    integrity (fragments.add [⟨0, 0, 1, [1]⟩] [⟨0, 0, 2, [2]⟩]) ≠
        integrity (fragments.add [⟨0, 0, 2, [2]⟩] [⟨0, 0, 1, [1]⟩]) ∧
      joins (fragments.add [⟨0, 0, 1, [1]⟩] [⟨0, 0, 2, [2]⟩]) ≠
        joins (fragments.add [⟨0, 0, 2, [2]⟩] [⟨0, 0, 1, [1]⟩]) := by
  decide

/-- C18, amended. Concatenation order is irrelevant: for all fragment sets
`a` and `b` in which any two fragments with the same `(id, seq)` are equal,
`integrity (a + b) = integrity (b + a)` and `joins (a + b) = joins (b + a)`. -/
theorem add_order_irrelevant (a b : fragments)
    (h : ∀ x ∈ a ++ b, ∀ y ∈ a ++ b, x.id = y.id → x.seq = y.seq → x = y) :
    integrity (fragments.add a b) = integrity (fragments.add b a) ∧
      joins (fragments.add a b) = joins (fragments.add b a) := by
  have hk : KeyFunctional (a ++ b) := fun x hx y hy hxy => h x hx y hy hxy.1 hxy.2
  have hs : sort (b ++ a) = sort (a ++ b) := by
    apply sort_congr hk
    intro x
    simp only [List.mem_append]
    exact Or.comm
  rw [add_eq, add_eq]
  exact ⟨integrity_congr hs, joins_congr hs⟩

theorem add_order_irrelevant_witness :
    integrity (fragments.add [⟨0, 0, 2, [1]⟩, ⟨1, 0, 1, [3]⟩] [⟨0, 1, 1, [2]⟩, ⟨0, 0, 2, [1]⟩]) =
        integrity
          (fragments.add [⟨0, 1, 1, [2]⟩, ⟨0, 0, 2, [1]⟩] [⟨0, 0, 2, [1]⟩, ⟨1, 0, 1, [3]⟩]) ∧
      joins (fragments.add [⟨0, 0, 2, [1]⟩, ⟨1, 0, 1, [3]⟩] [⟨0, 1, 1, [2]⟩, ⟨0, 0, 2, [1]⟩]) =
        joins (fragments.add [⟨0, 1, 1, [2]⟩, ⟨0, 0, 2, [1]⟩] [⟨0, 0, 2, [1]⟩, ⟨1, 0, 1, [3]⟩]) :=
  add_order_irrelevant [⟨0, 0, 2, [1]⟩, ⟨1, 0, 1, [3]⟩] [⟨0, 1, 1, [2]⟩, ⟨0, 0, 2, [1]⟩]
    (by decide)

/-- C19. Count-based false positive: there are a fragment set `fs` and a
channel id `i` with `eof fs i` true and `join fs i` non-empty although no
fragment of channel `i` has sequence number 0: completeness is decided by
count, not by coverage of the sequence numbers. -/
theorem count_based_false_positive :
    ∃ (fs : fragments) (i : Nat), eof fs i = true ∧ join fs i ≠ [] ∧
      ∀ f ∈ fs, f.id = i → f.seq ≠ 0 :=
  ⟨[⟨0, 1, 1, [7]⟩, ⟨0, 2, 0, [8]⟩], 0, by decide⟩

end Atom
